import Mathlib

set_option maxRecDepth 2000

/-!
Verification of the persistent configuration / dynamic-keymap store of the
qmk_modules repository, as a shallow embedding in Lean 4.

The embedding follows the C sources:
  * src/unnamed/part_006            -- fs_is_path_safe, fs_is_path_depth_valid
  * src/unnamed/part_005            -- fs_mount_nolock, fs_unmount_nolock, fs_is_mounted_nolock
  * src/experimental/sfdp_flash/sfdp_flash.c   -- density decoding of parameter dword 2
  * src/experimental/filesystem/nvm/nvm_eeconfig.c -- fs_chunked_data_compare, fs_update_block
  * src/experimental/filesystem/nvm/nvm_dynamic_keymap.c
                                     -- keymap store, macro store, save and load paths

C strings are modelled as List Char (without the terminating NUL); the
character at an index past the end plays the role of the NUL terminator.
Machine integers are modelled as Nat with explicit reductions modulo 2^w at
the points where the C types truncate.  Files are modelled as List Nat of
byte values; a filesystem directory is a function from file index to
Option (List Nat).
-/

/-! ### Path validation (src/unnamed/part_006)

fs_is_path_safe scans the path segment by segment; fs_is_path_depth_valid
counts non-empty segments.  Both are applied at every public filesystem entry
point, e.g. fs_mkdir checks
  fs_is_path_safe(path) && fs_is_path_depth_valid(path, FS_MAX_DIR_DEPTH)
before any locking or disk I/O. -/

/-- Character read of a C string at an index: past the end of the list the C
code sees the NUL terminator, which we represent by the character of code 0. -/
def cStrAt (path : List Char) (i : Nat) : Char :=
  path.getD i (Char.ofNat 0)

/-- Loop body of fs_is_path_safe (part_006 lines 61-85).  `pos` points at the
start of the current segment.  The inner while loop advancing to the end of
the segment is rendered with takeWhile over the remaining characters. -/
def fs_is_path_safe_loop (path : List Char) (pos : Nat) : Bool :=
  if _h : pos < path.length then
    let segEnd := pos + ((path.drop pos).takeWhile (fun c => decide (c ≠ '/'))).length
    let segLen := segEnd - pos
    if (segLen = 1 ∧ cStrAt path pos = '.') ∨
       (segLen = 2 ∧ cStrAt path pos = '.' ∧ cStrAt path (pos + 1) = '.') then
      false
    else if segEnd < path.length then
      -- path[segEnd] is a slash here (the takeWhile stopped before the end)
      if cStrAt path (segEnd + 1) = '/' then false
      else fs_is_path_safe_loop path (segEnd + 1)
    else
      true
  else
    true
termination_by path.length - pos
decreasing_by
  have : pos ≤ pos + ((path.drop pos).takeWhile (fun c => decide (c ≠ '/'))).length :=
    Nat.le_add_right _ _
  omega

/-- Translation of fs_is_path_safe (part_006 lines 55-88): skip one leading
slash, then run the scanning loop. -/
def fs_is_path_safe (path : List Char) : Bool :=
  fs_is_path_safe_loop path (if cStrAt path 0 = '/' then 1 else 0)

/-- Loop of fs_is_path_depth_valid (part_006 lines 103-118), operating on the
remaining characters.  On a non-slash character a segment starts: depth is
incremented, checked against max_depth, and the segment is skipped; on a slash
the character is skipped. -/
def fs_is_path_depth_valid_loop (cs : List Char) (max_depth depth : Nat) : Bool :=
  match cs with
  | [] => true
  | c :: rest =>
    if h : c ≠ '/' then
      if depth + 1 > max_depth then false
      else fs_is_path_depth_valid_loop ((c :: rest).dropWhile (fun x => decide (x ≠ '/')))
             max_depth (depth + 1)
    else
      fs_is_path_depth_valid_loop rest max_depth depth
termination_by cs.length
decreasing_by
  · have hdrop : (c :: rest).dropWhile (fun x => decide (x ≠ '/'))
        = rest.dropWhile (fun x => decide (x ≠ '/')) := by
      simp [List.dropWhile_cons, h]
    rw [hdrop]
    have := (List.dropWhile_sublist (l := rest) (fun x => decide (x ≠ '/'))).length_le
    simp only [List.length_cons]
    omega
  · simp

/-- Translation of fs_is_path_depth_valid (part_006 lines 90-121): empty paths
are rejected, one leading slash is skipped, then segments are counted. -/
def fs_is_path_depth_valid (path : List Char) (max_depth : Nat) : Bool :=
  if path = [] then false
  else fs_is_path_depth_valid_loop
    (if cStrAt path 0 = '/' then path.drop 1 else path) max_depth 0

/-- Maximum directory depth, part_004 line 11 (default configuration). -/
def FS_MAX_DIR_DEPTH : Nat := 3

/-- Maximum file path depth, part_004 line 16. -/
def FS_MAX_FILE_DEPTH : Nat := FS_MAX_DIR_DEPTH + 1

/-- Validation gate executed by fs_mkdir (part_005 lines 767-775) before any
disk I/O: path safety plus directory-depth validity. -/
def fs_mkdir_path_gate (path : List Char) : Bool :=
  fs_is_path_safe path && fs_is_path_depth_valid path FS_MAX_DIR_DEPTH

/-! ### SFDP density decoding (sfdp_flash.c lines 129-135)

Parameter dword 2 of the JEDEC base table carries the memory density:
a 31-bit `density` field and a 1-bit `is_high_density` flag.  The C code
computes
  uint32_t bits  = is_high_density ? (1 << density) : (density + 1);
  uint32_t bytes = bits / 8;
-/

/-- Density field of parameter dword 2: lowest 31 bits of the 32-bit word. -/
def sfdp_dword2_density (w : Nat) : Nat := w % 2 ^ 31

/-- High-density flag of parameter dword 2: top bit of the 32-bit word. -/
def sfdp_dword2_is_high_density (w : Nat) : Bool := w.testBit 31

/-- Memory density in bits as computed by sfdp_parse_parameter_table, case 2:
2 to the power of the stored value when the high-density flag is set,
otherwise the stored value plus one; truncated to the uint32_t it is stored
into. -/
def sfdp_density_bits (density : Nat) (is_high_density : Bool) : Nat :=
  (if is_high_density then 2 ^ density else density + 1) % 2 ^ 32

/-- Memory density in bytes: the bit count divided by 8 (integer division). -/
def sfdp_density_bytes (density : Nat) (is_high_density : Bool) : Nat :=
  sfdp_density_bits density is_high_density / 8

/-! ### Mount reference counting (part_005 lines 260-382)

The state tracked here is the `mount_count` reference counter (a C int) plus
a flag saying whether the underlying littlefs image is formatted, i.e.
whether a plain lfs_mount call would succeed.  lfs_format always succeeds and
makes the image mountable; fs_device_init always succeeds.

fs_mount_nolock contains a bounded mutual recursion:
  fs_mount_nolock -> fs_format_nolock -> fs_init_nolock -> fs_mount_nolock,
where the inner fs_mount_nolock call runs on a freshly formatted image and
therefore takes the plain lfs_mount branch.  The definition below unfolds
that recursion (it has static depth 2). -/

structure FsMountState where
  mount_count : Int
  formatted : Bool
deriving DecidableEq, Repr

/-- Translation of fs_is_mounted_nolock (part_005 lines 380-382). -/
def fs_is_mounted_nolock (s : FsMountState) : Bool :=
  decide (s.mount_count > 0)

/-- Effect of the `while (fs_is_mounted_nolock()) fs_unmount_nolock();` drain
loops at the top of fs_format_nolock and fs_init_nolock: the counter is
decremented until it reaches zero. -/
def fs_drain_mounts (s : FsMountState) : FsMountState :=
  if s.mount_count > 0 then { s with mount_count := 0 } else s

/-- Translation of fs_unmount_nolock (part_005 lines 366-373): decrement only
while mounted; the underlying lfs_unmount at zero has no modelled effect. -/
def fs_unmount_nolock (s : FsMountState) : FsMountState :=
  if fs_is_mounted_nolock s then { s with mount_count := s.mount_count - 1 } else s

/-- Translation of fs_mount_nolock (part_005 lines 344-359).  If already
mounted, or the image is formatted (lfs_mount succeeds), the counter is simply
incremented.  Otherwise the code formats: fs_format_nolock drains the counter,
formats the image, and re-enters fs_mount_nolock through fs_init_nolock --
that inner call increments the counter once; then the outer call retries
lfs_mount (now succeeding) and increments the counter a second time. -/
def fs_mount_nolock (s : FsMountState) : Bool × FsMountState :=
  if s.mount_count > 0 then
    (true, { s with mount_count := s.mount_count + 1 })
  else if s.formatted then
    (true, { s with mount_count := s.mount_count + 1 })
  else
    let s1 := fs_drain_mounts s
    let s2 := { s1 with formatted := true }
    let s3 := { s2 with mount_count := s2.mount_count + 1 }
    (true, { s3 with mount_count := s3.mount_count + 1 })

/-! ### Claim C5: path validation -/

/-- Claim C5 counterexample.  The claim states that the validation gate
rejects the path "/" for fs_mkdir and any path containing consecutive
slashes.  In fact the gate of fs_mkdir accepts "/" (fs_is_path_safe never
enters its loop and fs_is_path_depth_valid counts zero segments, which does
not exceed the limit), and the path "//a" passes both validators: after
skipping the single leading slash the scanner sees an empty first segment and
only checks the character pair following that segment, so the second slash of
a leading double slash is never flagged. -/
theorem fs_path_gate_accepts_root_and_leading_double_slash :
    fs_mkdir_path_gate ['/'] = true
    ∧ fs_is_path_safe ['/', '/', 'a'] = true
    ∧ fs_is_path_depth_valid ['/', '/', 'a'] FS_MAX_DIR_DEPTH = true := by
  refine ⟨?_, ?_, ?_⟩ <;>
    simp [fs_mkdir_path_gate, fs_is_path_safe, fs_is_path_safe_loop, cStrAt,
      fs_is_path_depth_valid, fs_is_path_depth_valid_loop, FS_MAX_DIR_DEPTH]

/-- Claim C5 (amended).  The validation gate applied by fs_mkdir rejects,
before any disk I/O: the empty path (through the depth validator), paths
containing a "." or ".." segment such as "/a/./b" and "/a/../b", paths with
consecutive slashes following a non-empty segment such as "/a//b", and paths
whose segment count exceeds FS_MAX_DIR_DEPTH = 3 such as "/a/b/c/d"; a
conforming path such as "/a/b/c" passes.  (Unlike the original claim, "/" and
a leading double slash as in "//a" are accepted, per the counterexample.) -/
theorem fs_path_gate_rejects_dot_dotdot_interior_slashes_and_depth :
    fs_mkdir_path_gate [] = false
    ∧ fs_mkdir_path_gate ['/', 'a', '/', '.', '/', 'b'] = false
    ∧ fs_mkdir_path_gate ['/', 'a', '/', '.', '.', '/', 'b'] = false
    ∧ fs_mkdir_path_gate ['/', 'a', '/', '/', 'b'] = false
    ∧ fs_mkdir_path_gate ['/', 'a', '/', 'b', '/', 'c', '/', 'd'] = false
    ∧ fs_mkdir_path_gate ['/', 'a', '/', 'b', '/', 'c'] = true := by
  refine ⟨?_, ?_, ?_, ?_, ?_, ?_⟩ <;>
    simp [fs_mkdir_path_gate, fs_is_path_safe, fs_is_path_safe_loop, cStrAt,
      fs_is_path_depth_valid, fs_is_path_depth_valid_loop, FS_MAX_DIR_DEPTH]

/-! ### Claim C8: SFDP density decoding -/

/-- Claim C8.  The density computed from parameter dword 2 is 2 to the power
of the stored value (in bits) when the high-density flag is set and the
stored value plus one otherwise; bytes are bits divided by 8.  In particular
density 0x17 with the flag clear gives 24 bits = 3 bytes, and density 0x19
with the flag set gives 2 to the 25th bits = 4 MiB. -/
theorem sfdp_density_decode :
    (∀ d, d < 2 ^ 31 → sfdp_density_bits d false = d + 1)
    ∧ (∀ d, d < 32 → sfdp_density_bits d true = 2 ^ d)
    ∧ (∀ d b, sfdp_density_bytes d b = sfdp_density_bits d b / 8)
    ∧ sfdp_density_bits 0x17 false = 24 ∧ sfdp_density_bytes 0x17 false = 3
    ∧ sfdp_density_bits 0x19 true = 2 ^ 25
    ∧ sfdp_density_bytes 0x19 true = 4 * 1024 * 1024 := by
  refine ⟨fun d hd => ?_, fun d hd => ?_, fun d b => rfl, by decide, by decide,
    by decide, by decide⟩
  · have h2 : d + 1 < 2 ^ 32 := by omega
    simpa [sfdp_density_bits] using Nat.mod_eq_of_lt h2
  · have h2 : (2 : Nat) ^ d < 2 ^ 32 := Nat.pow_lt_pow_right (by norm_num) hd
    simpa [sfdp_density_bits] using Nat.mod_eq_of_lt h2

/-- Witness for sfdp_density_decode: instantiation at density 0x17 = 23. -/
theorem sfdp_density_decode_witness : sfdp_density_bits 23 false = 23 + 1 :=
  sfdp_density_decode.1 23 (by norm_num)

/-! ### Claim C4: mount reference counting -/

/-- Claim C4 counterexample.  The claim states that every successful
fs_mount() increments mount_count by exactly one.  On the format-on-first-boot
path this is false: starting from an unformatted, unmounted device a single
successful fs_mount_nolock() call leaves mount_count = 2, because
fs_format_nolock re-enters fs_mount_nolock through fs_init_nolock (one
increment) and the outer call then increments again after its lfs_mount
retry succeeds. -/
theorem fs_mount_format_path_double_increment :
    (fs_mount_nolock ⟨0, false⟩).1 = true
    ∧ (fs_mount_nolock ⟨0, false⟩).2.mount_count = 2 := by
  constructor <;> rfl

/-- Claim C4 (amended).  fs_is_mounted_nolock holds exactly when
mount_count > 0; from any state whose littlefs image is already formatted (in
particular any already-mounted state), fs_mount_nolock succeeds and
increments mount_count by exactly one; fs_unmount_nolock while mounted
decrements it by exactly one; consequently, from a formatted unmounted state,
mount(); mount(); unmount() leaves is_mounted() true and one further
unmount() makes it false.  (On the format-on-first-boot path the net
increment is two, per the counterexample.) -/
theorem fs_mount_refcount (s : FsMountState) (hfmt : s.formatted = true) :
    (fs_is_mounted_nolock s = true ↔ s.mount_count > 0)
    ∧ (fs_mount_nolock s).1 = true
    ∧ (fs_mount_nolock s).2.mount_count = s.mount_count + 1
    ∧ (fs_is_mounted_nolock s = true →
        (fs_unmount_nolock s).mount_count = s.mount_count - 1)
    ∧ (fs_is_mounted_nolock
        (fs_unmount_nolock
          ((fs_mount_nolock (fs_mount_nolock ⟨0, true⟩).2).2)) = true
      ∧ fs_is_mounted_nolock
          (fs_unmount_nolock (fs_unmount_nolock
            ((fs_mount_nolock (fs_mount_nolock ⟨0, true⟩).2).2))) = false) := by
  refine ⟨by simp [fs_is_mounted_nolock], ?_, ?_, ?_, by decide, by decide⟩
  · by_cases hm : s.mount_count > 0 <;> simp [fs_mount_nolock, hm, hfmt]
  · by_cases hm : s.mount_count > 0 <;> simp [fs_mount_nolock, hm, hfmt]
  · intro hmnt
    simp only [fs_is_mounted_nolock, decide_eq_true_eq] at hmnt
    simp [fs_unmount_nolock, fs_is_mounted_nolock, hmnt]

/-- Witness for fs_mount_refcount: a formatted state with mount_count 5. -/
theorem fs_mount_refcount_witness :
    (FsMountState.mk 5 true).formatted = true
    ∧ (fs_mount_nolock ⟨5, true⟩).2.mount_count = 5 + 1 :=
  ⟨rfl, (fs_mount_refcount ⟨5, true⟩ rfl).2.2.1⟩

/-! ### EeConfig block update (nvm_eeconfig.c lines 50-124)

fs_update_block(filename, data, size) first opens the file for reading and
compares its contents with the new data in chunks of at most 32 bytes; only
if the comparison fails does it open the file with Write|Truncate and write
the data.  The model tracks a single file (the one named by the filename)
as an optional byte list together with a counter of underlying write opens,
standing for the mocked-device write count. -/

/-- Stack buffer size of the chunked comparison, nvm_eeconfig.c line 50. -/
def MAX_STACK_BUFFER_SIZE : Nat := 32

/-- State of one EeConfig file: its contents if it exists, plus the number of
times it has been opened for writing (the underlying write count). -/
structure EeFsFile where
  file : Option (List Nat)
  writeOpens : Nat
deriving DecidableEq, Repr

/-- Loop of fs_chunked_data_compare (nvm_eeconfig.c lines 58-68).  `pos` is
the read position of the open file descriptor, `offset` the offset into the
new data.  A short read (fs_read returning fewer bytes than the chunk size,
i.e. the file is shorter than `size`) counts as a difference. -/
def fs_chunked_data_compare_loop (content : List Nat) (pos : Nat) (data : List Nat)
    (offset remaining : Nat) : Bool :=
  if _h : 0 < remaining then
    let chunk := min remaining MAX_STACK_BUFFER_SIZE
    let readBytes := (content.drop pos).take chunk
    if readBytes.length ≠ chunk then false
    else if readBytes ≠ (data.drop offset).take chunk then false
    else fs_chunked_data_compare_loop content (pos + chunk) data (offset + chunk)
           (remaining - chunk)
  else true
termination_by remaining
decreasing_by simp only [MAX_STACK_BUFFER_SIZE]; omega

/-- Translation of fs_chunked_data_compare (nvm_eeconfig.c lines 52-70),
started on a freshly opened descriptor (position 0). -/
def fs_chunked_data_compare (content data : List Nat) (size : Nat) : Bool :=
  fs_chunked_data_compare_loop content 0 data 0 size

/-- Translation of fs_update_block (nvm_eeconfig.c lines 91-124).  If the
file exists and the chunked comparison finds its contents equal to the data,
the function returns without opening for writing; otherwise it opens with
Write|Truncate (counted in writeOpens) and the file becomes the first `size`
bytes of the data. -/
def fs_update_block (st : EeFsFile) (data : List Nat) (size : Nat) : EeFsFile :=
  match st.file with
  | some content =>
    if fs_chunked_data_compare content data size then st
    else { file := some (data.take size), writeOpens := st.writeOpens + 1 }
  | none => { file := some (data.take size), writeOpens := st.writeOpens + 1 }

/-- Helper: the chunked comparison succeeds whenever the file is long enough
and agrees with the data on the compared window. -/
theorem fs_chunked_data_compare_loop_agree (content data : List Nat) :
    ∀ remaining pos offset, pos + remaining ≤ content.length →
      (content.drop pos).take remaining = (data.drop offset).take remaining →
      fs_chunked_data_compare_loop content pos data offset remaining = true := by
  intro remaining
  induction remaining using Nat.strong_induction_on with
  | _ remaining ih =>
    intro pos offset hlen hagree
    unfold fs_chunked_data_compare_loop
    by_cases h : 0 < remaining
    · rw [dif_pos h]
      have hchunk_le : min remaining MAX_STACK_BUFFER_SIZE ≤ remaining :=
        Nat.min_le_left _ _
      have hchunk_pos : 0 < min remaining MAX_STACK_BUFFER_SIZE := by
        simp only [MAX_STACK_BUFFER_SIZE]; omega
      set chunk := min remaining MAX_STACK_BUFFER_SIZE with hchunk
      have hdroplen : remaining ≤ (content.drop pos).length := by
        simp only [List.length_drop]; omega
      have hreadlen : ((content.drop pos).take chunk).length = chunk := by
        simp only [List.length_take]; omega
      have hread : (content.drop pos).take chunk = (data.drop offset).take chunk := by
        have h1 : ((content.drop pos).take remaining).take chunk
            = ((data.drop offset).take remaining).take chunk := by rw [hagree]
        simpa [List.take_take, Nat.min_eq_left hchunk_le] using h1
      rw [if_neg (by simp [hreadlen]), if_neg (by simp [hread])]
      apply ih (remaining - chunk) (by omega) (pos + chunk) (offset + chunk) (by omega)
      have h2 : ((content.drop pos).take remaining).drop chunk
          = ((data.drop offset).take remaining).drop chunk := by rw [hagree]
      simpa [List.drop_take, List.drop_drop, Nat.add_comm] using h2
    · rw [dif_neg h]

/-- Helper: fs_update_block returns the state untouched when the chunked
comparison against the existing file succeeds. -/
theorem fs_update_block_of_compare_true {st : EeFsFile} {content data : List Nat}
    {size : Nat} (hf : st.file = some content)
    (hc : fs_chunked_data_compare content data size = true) :
    fs_update_block st data size = st := by
  simp [fs_update_block, hf, hc]

/-- Helper: the chunked comparison succeeds whenever the file holds at least
`size` bytes and its first `size` bytes equal the first `size` bytes of the
data. -/
theorem fs_chunked_data_compare_of_take_eq {content data : List Nat} {size : Nat}
    (hlen : size ≤ content.length) (heq : content.take size = data.take size) :
    fs_chunked_data_compare content data size = true :=
  fs_chunked_data_compare_loop_agree content data size 0 0 (by omega) (by simpa using heq)

/-! ### Claim C10: fs_update_block leaves a matching file untouched -/

/-- Claim C10.  If the first `size` bytes of the existing file equal the
supplied data, fs_update_block leaves the state entirely unchanged: a file
longer than `size` whose prefix matches is neither truncated nor rewritten
and keeps its trailing bytes, and no underlying write occurs. -/
theorem fs_update_block_frame_preserves_matching_file
    (content data : List Nat) (w size : Nat)
    (hsize : size = data.length) (hpre : data <+: content) :
    fs_update_block ⟨some content, w⟩ data size = ⟨some content, w⟩ := by
  have hlen : size ≤ content.length := hsize ▸ hpre.length_le
  have htake : content.take size = data.take size := by
    subst hsize
    rw [List.prefix_iff_eq_take.mp hpre, List.take_take]
    simp
  exact fs_update_block_of_compare_true rfl (fs_chunked_data_compare_of_take_eq hlen htake)

/-- Witness for claim C10: the file [1,2,3] is untouched by an update with
data [1,2] of size 2, keeping its trailing byte. -/
theorem fs_update_block_frame_preserves_matching_file_witness :
    (2 : Nat) = ([1, 2] : List Nat).length ∧ ([1, 2] : List Nat) <+: [1, 2, 3]
    ∧ fs_update_block ⟨some [1, 2, 3], 5⟩ [1, 2] 2 = ⟨some [1, 2, 3], 5⟩ :=
  ⟨rfl, by decide,
    fs_update_block_frame_preserves_matching_file [1, 2, 3] [1, 2] 5 2 rfl (by decide)⟩

/-! ### Claim C7: wear-saving idempotency of fs_update_block -/

/-- Claim C7 counterexample.  The claim states that two successive
fs_update_block calls with the same data perform exactly one underlying
write.  If the file already contains the data, both calls skip the write, so
the two calls perform zero underlying writes, not one. -/
theorem fs_update_block_twice_zero_writes :
    (fs_update_block (fs_update_block ⟨some [1, 2], 0⟩ [1, 2] 2) [1, 2] 2).writeOpens = 0
    ∧ (fs_update_block (fs_update_block ⟨some [1, 2], 0⟩ [1, 2] 2) [1, 2] 2).writeOpens
        ≠ 1 := by
  have h1 : fs_update_block ⟨some [1, 2], 0⟩ [1, 2] 2 = ⟨some [1, 2], 0⟩ :=
    fs_update_block_of_compare_true rfl
      (fs_chunked_data_compare_of_take_eq (by decide) rfl)
  rw [h1, h1]
  exact ⟨rfl, by decide⟩

/-- Claim C7 (amended).  For two successive fs_update_block calls with the
same filename, data and size (size within the data): the second call finds
the file contents equal via the chunked read-back comparison and returns
without opening the file for writing, leaving the state of the first call
unchanged; hence at most one underlying write happens across the two calls,
and exactly one when the file did not exist before the first call. -/
theorem fs_update_block_second_call_skips_write
    (st : EeFsFile) (data : List Nat) (size : Nat) (hsize : size ≤ data.length) :
    fs_update_block (fs_update_block st data size) data size
        = fs_update_block st data size
    ∧ (fs_update_block st data size).writeOpens ≤ st.writeOpens + 1
    ∧ (st.file = none →
        (fs_update_block st data size).writeOpens = st.writeOpens + 1) := by
  have hwr : fs_update_block (⟨some (data.take size), st.writeOpens + 1⟩ : EeFsFile)
      data size = ⟨some (data.take size), st.writeOpens + 1⟩ := by
    refine fs_update_block_of_compare_true rfl (fs_chunked_data_compare_of_take_eq ?_ ?_)
    · simp [hsize]
    · simp [List.take_take]
  match hf : st.file with
  | none =>
    have hwrite : fs_update_block st data size
        = ⟨some (data.take size), st.writeOpens + 1⟩ := by
      simp [fs_update_block, hf]
    rw [hwrite]
    exact ⟨hwr, by simp, fun _ => by simp⟩
  | some content =>
    by_cases hc : fs_chunked_data_compare content data size = true
    · have hskip : fs_update_block st data size = st := fs_update_block_of_compare_true hf hc
      rw [hskip, hskip]
      exact ⟨rfl, by omega, fun hn => by simp [hf] at hn⟩
    · have hwrite : fs_update_block st data size
          = ⟨some (data.take size), st.writeOpens + 1⟩ := by
        simp [fs_update_block, hf, hc]
      rw [hwrite]
      exact ⟨hwr, by simp, fun _ => by simp⟩

/-- Witness for claim C7 (amended): a fresh (absent) file written twice. -/
theorem fs_update_block_second_call_skips_write_witness :
    (2 : Nat) ≤ ([7, 8] : List Nat).length
    ∧ (fs_update_block ⟨none, 0⟩ [7, 8] 2).writeOpens = 0 + 1 :=
  ⟨by decide, (fs_update_block_second_call_skips_write ⟨none, 0⟩ [7, 8] 2 (by decide)).2.2 rfl⟩

/-! ### Macro store (nvm_dynamic_keymap.c lines 375-453)

dynamic_macro_buffer is a fixed 1024-byte buffer of NUL-terminated macro
strings.  The buffer is modelled as a List Nat of length 1024; the macro file
directory ("macros/NN") is a function from macro index to Option (List Nat).

nvm_dynamic_keymap_macro_save walks the buffer run by run: a run is a maximal
sequence of non-NUL bytes; a non-empty run numbered n is written to file n,
an empty run writes nothing, and the index increments either way.  The walk
is rendered as a recursion over the remaining suffix of the buffer (the C
macro_start pointer corresponds to the start of that suffix).

nvm_dynamic_keymap_macro_load zeroes the buffer and reads files 0, 1, 2, ...
back to back, leaving one (already zero) byte after each, stopping at the
first absent file or empty read.  The C size_t arithmetic
max_count -= count + 1 is rendered with truncated Nat subtraction; the two
can only differ after the buffer is exactly filled, in which case both the C
code and the model stop before any further byte is placed. -/

/-- Size of dynamic_macro_buffer (nvm_dynamic_keymap.c line 376). -/
def MACRO_BUFFER_SIZE : Nat := 1024

/-- Translation of nvm_dynamic_keymap_macro_update_buffer (lines 389-397):
clamp the size to the end of the buffer, compare the affected window, and
copy plus mark altered only on a difference.  Returns the new buffer and the
new dynamic_macro_altered flag. -/
def nvm_dynamic_keymap_macro_update_buffer (buf : List Nat) (altered : Bool)
    (offset size : Nat) (data : List Nat) : List Nat × Bool :=
  let size' := if offset + size ≥ MACRO_BUFFER_SIZE then MACRO_BUFFER_SIZE - offset else size
  if (buf.drop offset).take size' = data.take size' then (buf, altered)
  else (buf.take offset ++ data.take size' ++ buf.drop (offset + size'), true)

/-- Translation of nvm_dynamic_keymap_macro_read_buffer (lines 382-388): the
destination is zeroed over the full requested size, then the clamped window
is copied over its front. -/
def nvm_dynamic_keymap_macro_read_buffer (buf : List Nat) (offset size : Nat) :
    List Nat :=
  let size' := if offset + size ≥ MACRO_BUFFER_SIZE then MACRO_BUFFER_SIZE - offset else size
  (buf.drop offset).take size' ++ List.replicate (size - size') 0

/-- Walk of nvm_dynamic_keymap_macro_save (lines 407-422) over the remaining
buffer suffix: write each non-empty NUL-terminated (or buffer-end-terminated)
run to its index, skip empty runs, increment the index either way. -/
def nvm_dynamic_keymap_macro_save_loop (rem : List Nat)
    (fsm : Nat → Option (List Nat)) (n : Nat) : Nat → Option (List Nat) :=
  if hrem : rem = [] then fsm
  else
    let run := rem.takeWhile (fun b => decide (b ≠ 0))
    let fsm' := if run.length > 0 then (fun m => if m = n then some run else fsm m) else fsm
    nvm_dynamic_keymap_macro_save_loop (rem.drop (run.length + 1)) fsm' (n + 1)
termination_by rem.length
decreasing_by
  have hpos : 0 < rem.length := List.length_pos.mpr hrem
  simp only [List.length_drop]
  omega

/-- Translation of nvm_dynamic_keymap_macro_save (lines 405-425): walk and
write only when the altered flag is set, then clear it. -/
def nvm_dynamic_keymap_macro_save (buf : List Nat) (altered : Bool)
    (fsm : Nat → Option (List Nat)) : (Nat → Option (List Nat)) × Bool :=
  if altered then (nvm_dynamic_keymap_macro_save_loop buf fsm 0, false) else (fsm, altered)

/-- Overwrite of `data.length` bytes of `buf` starting at `pos` (the effect
of the fs_read into the moving pointer of macro load). -/
def listWriteAt (buf : List Nat) (pos : Nat) (data : List Nat) : List Nat :=
  buf.take pos ++ data ++ buf.drop (pos + data.length)

/-- Loop of nvm_dynamic_keymap_macro_load (lines 432-452): while file n
exists and the read is non-empty, place the read bytes at the current
position and skip one byte (the NUL, already zero from the initial memset). -/
def nvm_dynamic_keymap_macro_load_loop (fsm : Nat → Option (List Nat)) (n : Nat)
    (buf : List Nat) (pos max_count : Nat) : List Nat :=
  match fsm n with
  | none => buf
  | some content =>
    if hcount : 0 < min content.length max_count then
      nvm_dynamic_keymap_macro_load_loop fsm (n + 1)
        (listWriteAt buf pos (content.take (min content.length max_count)))
        (pos + min content.length max_count + 1)
        (max_count - (min content.length max_count + 1))
    else buf
termination_by max_count
decreasing_by
  have := Nat.min_le_right content.length max_count
  omega

/-- Translation of nvm_dynamic_keymap_macro_load (lines 427-453): zero the
buffer, then run the loop from file 0 with the full capacity. -/
def nvm_dynamic_keymap_macro_load (fsm : Nat → Option (List Nat)) : List Nat :=
  nvm_dynamic_keymap_macro_load_loop fsm 0 (List.replicate MACRO_BUFFER_SIZE 0) 0
    MACRO_BUFFER_SIZE

/-- List of runs of a buffer, exactly as the save walk visits them: the n-th
element is the (possibly empty) run at macro index n. -/
def macroRuns (rem : List Nat) : List (List Nat) :=
  if hrem : rem = [] then []
  else
    let run := rem.takeWhile (fun b => decide (b ≠ 0))
    run :: macroRuns (rem.drop (run.length + 1))
termination_by rem.length
decreasing_by
  have hpos : 0 < rem.length := List.length_pos.mpr hrem
  simp only [List.length_drop]
  omega

/-- A buffer layout round-trips through save and load exactly when no empty
run precedes a non-empty one: once an empty run occurs, every later run must
be empty as well. -/
def macroRunsGood (buf : List Nat) : Bool :=
  ((macroRuns buf).dropWhile (fun r => decide (r ≠ []))).all (fun r => r.isEmpty)

/-- Step equation of the save walk on the empty suffix. -/
theorem macro_save_loop_nil (fsm : Nat → Option (List Nat)) (n : Nat) :
    nvm_dynamic_keymap_macro_save_loop [] fsm n = fsm := by
  unfold nvm_dynamic_keymap_macro_save_loop
  simp

/-- Step equation of the save walk on a non-empty suffix. -/
theorem macro_save_loop_cons (rem : List Nat) (fsm : Nat → Option (List Nat))
    (n : Nat) (hrem : rem ≠ []) :
    nvm_dynamic_keymap_macro_save_loop rem fsm n =
      nvm_dynamic_keymap_macro_save_loop
        (rem.drop ((rem.takeWhile (fun b => decide (b ≠ 0))).length + 1))
        (if 0 < (rem.takeWhile (fun b => decide (b ≠ 0))).length then
          (fun m => if m = n then some (rem.takeWhile (fun b => decide (b ≠ 0))) else fsm m)
        else fsm)
        (n + 1) := by
  conv_lhs => unfold nvm_dynamic_keymap_macro_save_loop
  rw [dif_neg hrem]

/-- Step equations of macroRuns. -/
theorem macroRuns_nil : macroRuns [] = [] := by
  unfold macroRuns
  simp

theorem macroRuns_cons (rem : List Nat) (hrem : rem ≠ []) :
    macroRuns rem = rem.takeWhile (fun b => decide (b ≠ 0))
      :: macroRuns (rem.drop ((rem.takeWhile (fun b => decide (b ≠ 0))).length + 1)) := by
  conv_lhs => unfold macroRuns
  rw [dif_neg hrem]

/-- Step equations of the load loop. -/
theorem macro_load_loop_none (fsm : Nat → Option (List Nat)) (n : Nat)
    (buf : List Nat) (pos max_count : Nat) (hn : fsm n = none) :
    nvm_dynamic_keymap_macro_load_loop fsm n buf pos max_count = buf := by
  unfold nvm_dynamic_keymap_macro_load_loop
  rw [hn]

theorem macro_load_loop_some (fsm : Nat → Option (List Nat)) (n : Nat)
    (buf : List Nat) (pos max_count : Nat) (content : List Nat)
    (hn : fsm n = some content) (hc : 0 < min content.length max_count) :
    nvm_dynamic_keymap_macro_load_loop fsm n buf pos max_count =
      nvm_dynamic_keymap_macro_load_loop fsm (n + 1)
        (listWriteAt buf pos (content.take (min content.length max_count)))
        (pos + min content.length max_count + 1)
        (max_count - (min content.length max_count + 1)) := by
  conv_lhs => unfold nvm_dynamic_keymap_macro_load_loop
  rw [hn]
  simp only [dif_pos hc]

/-- Helper: walking an all-zero suffix writes no files. -/
theorem macro_save_loop_replicate_zero (k : Nat) :
    ∀ n (fsm : Nat → Option (List Nat)),
      nvm_dynamic_keymap_macro_save_loop (List.replicate k 0) fsm n = fsm := by
  induction k with
  | zero => intro n fsm; exact macro_save_loop_nil fsm n
  | succ k ih =>
    intro n fsm
    rw [macro_save_loop_cons _ _ _ (by simp [List.replicate_succ])]
    simp [List.replicate_succ, ih]

/-- Helper: the save walk never writes a file index below its starting
index. -/
theorem macro_save_loop_frame (k : Nat) :
    ∀ (rem : List Nat) (fsm : Nat → Option (List Nat)) (n m : Nat),
      rem.length ≤ k → m < n →
      nvm_dynamic_keymap_macro_save_loop rem fsm n m = fsm m := by
  induction k with
  | zero =>
    intro rem fsm n m hk hm
    have hrem : rem = [] := List.eq_nil_of_length_eq_zero (by omega)
    subst hrem
    rw [macro_save_loop_nil]
  | succ k ih =>
    intro rem fsm n m hk hm
    by_cases hrem : rem = []
    · subst hrem; rw [macro_save_loop_nil]
    · have hpos : 0 < rem.length := List.length_pos.mpr hrem
      rw [macro_save_loop_cons _ _ _ hrem]
      rw [ih _ _ _ _ (by simp only [List.length_drop]; omega) (by omega)]
      by_cases hlen : 0 < (rem.takeWhile (fun b => decide (b ≠ 0))).length
      · rw [if_pos hlen, if_neg (by omega)]
      · rw [if_neg hlen]

/-- Helper: if every run of a buffer is empty, the buffer is all zeros. -/
theorem macroRuns_all_empty (k : Nat) :
    ∀ rem : List Nat, rem.length ≤ k →
      (macroRuns rem).all (fun r => r.isEmpty) = true →
      rem = List.replicate rem.length 0 := by
  induction k with
  | zero =>
    intro rem hk _
    have hrem : rem = [] := List.eq_nil_of_length_eq_zero (by omega)
    simp [hrem]
  | succ k ih =>
    intro rem hk hall
    by_cases hrem : rem = []
    · simp [hrem]
    · rw [macroRuns_cons _ hrem] at hall
      simp only [List.all_cons, Bool.and_eq_true, List.isEmpty_iff] at hall
      obtain ⟨hrun, hrest⟩ := hall
      obtain ⟨b, rest, rfl⟩ := List.exists_cons_of_ne_nil hrem
      have hb : b = 0 := by
        by_contra hb
        simp [List.takeWhile_cons, hb] at hrun
      subst hb
      have hlen0 : ((0 :: rest).takeWhile (fun b => decide (b ≠ 0))).length = 0 := by
        simp [List.takeWhile_cons]
      rw [hlen0] at hrest
      simp only [List.drop_succ_cons, List.drop_zero] at hrest
      have hrest' := ih rest (by simp at hk; omega) (by simpa using hrest)
      calc 0 :: rest = 0 :: List.replicate rest.length 0 := by rw [← hrest']
        _ = List.replicate (0 :: rest).length 0 := by simp [List.replicate_succ]

/-- Length of a window overwrite that stays inside the buffer. -/
theorem listWriteAt_length (buf : List Nat) (pos : Nat) (data : List Nat)
    (h : pos + data.length ≤ buf.length) :
    (listWriteAt buf pos data).length = buf.length := by
  simp only [listWriteAt, List.length_append, List.length_take, List.length_drop]
  omega


/-- A window overwrite does not disturb the bytes past the window. -/
theorem listWriteAt_drop_past (buf : List Nat) (pos : Nat) (data : List Nat) (j : Nat)
    (hpos : pos ≤ buf.length) :
    (listWriteAt buf pos data).drop (pos + data.length + j)
      = buf.drop (pos + data.length + j) := by
  simp only [listWriteAt]
  conv_lhs =>
    rw [show pos + data.length + j = (buf.take pos).length + (data.length + j) from by
      simp only [List.length_take]; omega]
  rw [List.append_assoc, List.drop_append, List.drop_append, List.drop_drop]

/-- Prefix of the buffer after a window overwrite: the untouched head, the
window, and the first `j` surviving bytes after the window. -/
theorem listWriteAt_take_past (buf : List Nat) (pos : Nat) (data : List Nat) (j : Nat)
    (hpos : pos ≤ buf.length) :
    (listWriteAt buf pos data).take (pos + data.length + j)
      = buf.take pos ++ (data ++ (buf.drop (pos + data.length)).take j) := by
  simp only [listWriteAt]
  conv_lhs =>
    rw [show pos + data.length + j = (buf.take pos).length + (data.length + j) from by
      simp only [List.length_take]; omega]
  rw [List.append_assoc, List.take_append, List.take_append]

/-- Decomposition of a buffer whose leading run does not reach its end: the
run, the terminating NUL, and the remainder. -/
theorem takeWhile_zero_split (rem : List Nat)
    (hlt : (rem.takeWhile (fun b => decide (b ≠ 0))).length < rem.length) :
    rem = rem.takeWhile (fun b => decide (b ≠ 0))
      ++ 0 :: rem.drop ((rem.takeWhile (fun b => decide (b ≠ 0))).length + 1) := by
  induction rem with
  | nil => simp at hlt
  | cons b t ih =>
    by_cases hb : b = 0
    · subst hb
      simp [List.takeWhile_cons]
    · rw [List.takeWhile_cons_of_pos (by simpa using hb)] at hlt ⊢
      simp only [List.length_cons] at hlt
      have hlt' : (t.takeWhile (fun b => decide (b ≠ 0))).length < t.length := by omega
      have hdr : (b :: t).drop ((b :: t.takeWhile (fun x => decide (x ≠ 0))).length + 1)
          = t.drop ((t.takeWhile (fun x => decide (x ≠ 0))).length + 1) := by
        simp only [List.length_cons, List.drop_succ_cons]
      rw [hdr, List.cons_append]
      exact congrArg (b :: ·) (ih hlt')

/-- Main alignment lemma for the macro store: if the remaining suffix of the
buffer is well laid out (no empty run before a non-empty one), the files
written by the save walk starting at index n are read back by the load loop
into exactly that suffix.  `buf` is the partially reconstructed buffer, zero
from position `pos` on. -/
theorem macro_save_load_aligned (k : Nat) :
    ∀ (rem : List Nat) (fsm : Nat → Option (List Nat)) (n : Nat)
      (buf : List Nat) (pos : Nat),
      rem.length ≤ k →
      pos + rem.length = MACRO_BUFFER_SIZE →
      buf.length = MACRO_BUFFER_SIZE →
      buf.drop pos = List.replicate rem.length 0 →
      (∀ m, n ≤ m → fsm m = none) →
      macroRunsGood rem = true →
      nvm_dynamic_keymap_macro_load_loop
          (nvm_dynamic_keymap_macro_save_loop rem fsm n) n buf pos rem.length
        = buf.take pos ++ rem := by
  induction k with
  | zero =>
    intro rem fsm n buf pos hk hpos hbuf _hdrop hnone _hgood
    have hrem : rem = [] := List.eq_nil_of_length_eq_zero (by omega)
    subst hrem
    rw [macro_save_loop_nil, macro_load_loop_none _ _ _ _ _ (hnone n le_rfl)]
    simp only [List.length_nil, Nat.add_zero] at hpos
    simp [List.take_of_length_le (le_of_eq (hbuf.trans hpos.symm))]
  | succ k ih =>
    intro rem fsm n buf pos hk hpos hbuf hdrop hnone hgood
    by_cases hrem : rem = []
    · subst hrem
      rw [macro_save_loop_nil, macro_load_loop_none _ _ _ _ _ (hnone n le_rfl)]
      simp only [List.length_nil, Nat.add_zero] at hpos
      simp [List.take_of_length_le (le_of_eq (hbuf.trans hpos.symm))]
    · have hrempos : 0 < rem.length := List.length_pos.mpr hrem
      have hrunlen : (rem.takeWhile (fun b => decide (b ≠ 0))).length ≤ rem.length :=
        (List.takeWhile_prefix _).length_le
      by_cases hlen0 : (rem.takeWhile (fun b => decide (b ≠ 0))).length = 0
      · -- the first run is empty: by goodness the whole suffix is zeros,
        -- the walk writes nothing, and the load loop stops at file n
        have hruns : macroRuns rem = [] :: macroRuns (rem.drop 1) := by
          rw [macroRuns_cons _ hrem, List.eq_nil_of_length_eq_zero hlen0]
          simp
        have hallempty : (macroRuns rem).all (fun r => r.isEmpty) = true := by
          have h1 := hgood
          unfold macroRunsGood at h1
          rw [hruns] at h1 ⊢
          simpa [List.dropWhile_cons] using h1
        have hzero : rem = List.replicate rem.length 0 :=
          macroRuns_all_empty rem.length rem le_rfl hallempty
        have hsave0 : nvm_dynamic_keymap_macro_save_loop rem fsm n = fsm := by
          conv_lhs => rw [hzero]
          exact macro_save_loop_replicate_zero _ _ _
        rw [hsave0, macro_load_loop_none _ _ _ _ _ (hnone n le_rfl)]
        conv_rhs => rw [hzero, ← hdrop]
        rw [List.take_append_drop]
      · -- the first run is non-empty
        by_cases hfin : (rem.takeWhile (fun b => decide (b ≠ 0))).length = rem.length
        · -- the run reaches the end of the buffer with no NUL terminator
          have hrun_eq : rem.takeWhile (fun b => decide (b ≠ 0)) = rem :=
            (List.takeWhile_prefix _).eq_of_length hfin
          rw [macro_save_loop_cons _ _ _ hrem, if_pos (Nat.pos_of_ne_zero hlen0), hrun_eq]
          rw [List.drop_eq_nil_of_le (by omega), macro_save_loop_nil]
          have hfile : (fun m => if m = n then some rem else fsm m) n = some rem := by simp
          rw [macro_load_loop_some _ _ _ _ _ _ hfile (by rw [Nat.min_self]; omega)]
          rw [Nat.min_self, List.take_length]
          rw [macro_load_loop_none _ _ _ _ _
            (by show (if n + 1 = n then some rem else fsm (n + 1)) = none
                rw [if_neg (by omega : ¬ n + 1 = n)]
                exact hnone _ (by omega))]
          rw [listWriteAt, List.drop_eq_nil_of_le (by omega), List.append_nil]
        · have hflt : (rem.takeWhile (fun b => decide (b ≠ 0))).length < rem.length :=
            lt_of_le_of_ne hrunlen hfin
          have hsplit := takeWhile_zero_split rem hflt
          have hrunne : rem.takeWhile (fun b => decide (b ≠ 0)) ≠ [] := by
            intro hc
            exact hlen0 (by rw [hc]; rfl)
          generalize hrun : rem.takeWhile (fun b => decide (b ≠ 0)) = run at hsplit hrunne
          generalize hrest : rem.drop (run.length + 1) = rest at hsplit
          subst hsplit
          -- from here rem is literally run ++ 0 :: rest
          simp only [List.length_append, List.length_cons] at hpos hdrop hk
          have hrunpos : 0 < run.length := List.length_pos.mpr hrunne
          -- the save walk writes run to file n and recurses on rest
          rw [macro_save_loop_cons _ _ _ (by simp), hrun, if_pos hrunpos]
          rw [show (run ++ 0 :: rest).drop (run.length + 1)
              = (0 :: rest).drop 1 from List.drop_append 1, List.drop_one, List.tail_cons]
          -- the load loop reads file n back
          have hsaved_n : nvm_dynamic_keymap_macro_save_loop rest
              (fun m => if m = n then some run else fsm m) (n + 1) n = some run := by
            rw [macro_save_loop_frame rest.length _ _ _ n le_rfl (by omega)]
            simp
          have hminrun : min run.length (run.length + (rest.length + 1)) = run.length := by
            omega
          rw [show (run ++ 0 :: rest).length = run.length + (rest.length + 1) from by
            simp]
          rw [macro_load_loop_some _ _ _ _ _ _ hsaved_n (by rw [hminrun]; omega)]
          rw [hminrun, List.take_length]
          rw [show run.length + (rest.length + 1) - (run.length + 1) = rest.length from by
            omega]
          -- apply the induction hypothesis on rest
          have hrec := ih rest (fun m => if m = n then some run else fsm m) (n + 1)
            (listWriteAt buf pos run) (pos + run.length + 1)
            (by omega) (by omega)
            (by rw [listWriteAt_length _ _ _ (by omega)]; exact hbuf)
            (by rw [listWriteAt_drop_past _ _ _ _ (by omega)]
                rw [show pos + run.length + 1 = pos + (run.length + 1) from by omega]
                rw [(List.drop_drop (run.length + 1) pos buf).symm, hdrop,
                  List.drop_replicate]
                congr 1
                omega)
            (by intro m hm
                show (if m = n then some run else fsm m) = none
                rw [if_neg (by omega : ¬ m = n)]
                exact hnone m (by omega))
            (by unfold macroRunsGood at hgood ⊢
                rw [macroRuns_cons _ (by simp), hrun,
                  show (run ++ 0 :: rest).drop (run.length + 1)
                    = (0 :: rest).drop 1 from List.drop_append 1,
                  List.drop_one, List.tail_cons,
                  List.dropWhile_cons_of_pos (by simpa using hrunne)] at hgood
                exact hgood)
          rw [hrec]
          -- reassemble: the prefix of the written buffer plus rest is the
          -- original prefix plus run, NUL, rest
          rw [listWriteAt_take_past _ _ _ _ (by omega)]
          rw [show buf.drop (pos + run.length)
              = (buf.drop pos).drop run.length from by rw [List.drop_drop, Nat.add_comm]]
          rw [hdrop, List.drop_replicate, List.take_replicate]
          rw [show min 1 (run.length + (rest.length + 1) - run.length) = 1 from by omega]
          simp

/-- Helper: every run of an all-zero buffer is empty. -/
theorem macroRuns_replicate_zero_all (k : Nat) :
    (macroRuns (List.replicate k 0)).all (fun r => r.isEmpty) = true := by
  induction k with
  | zero => rw [show List.replicate 0 (0 : Nat) = [] from rfl, macroRuns_nil]; rfl
  | succ k ih =>
    rw [List.replicate_succ, macroRuns_cons _ (by simp)]
    simp [List.takeWhile_cons, ih]

/-- Helper: installing a full-buffer image over the zeroed buffer yields
exactly that image. -/
theorem macro_update_full_from_zero (data : List Nat)
    (hlen : data.length = MACRO_BUFFER_SIZE) :
    (nvm_dynamic_keymap_macro_update_buffer (List.replicate MACRO_BUFFER_SIZE 0) false 0
      MACRO_BUFFER_SIZE data).1 = data := by
  have hdt : data.take MACRO_BUFFER_SIZE = data := List.take_of_length_le (le_of_eq hlen)
  unfold nvm_dynamic_keymap_macro_update_buffer
  simp only [Nat.zero_add, ge_iff_le, le_refl, if_true, Nat.sub_zero, List.drop_zero,
    List.take_replicate, Nat.min_self, hdt]
  by_cases heq : List.replicate MACRO_BUFFER_SIZE 0 = data
  · rw [if_pos heq]
    exact heq
  · rw [if_neg heq]
    simp [List.drop_replicate]

/-! ### Claim C6: macro buffer save/load round trip -/

/-- Claim C6 (amended).  For macro buffer contents installed over the erased
store by nvm_dynamic_keymap_macro_update_buffer, saving and then loading
restores the buffer -- and hence every in-range read -- provided the layout
is contiguous (macroRunsGood): no empty macro run precedes a non-empty one.
Without that proviso the claim fails, per the counterexample: save skips the
file index of an empty run while load stops at the first missing file. -/
theorem nvm_dynamic_keymap_macro_save_load_roundtrip
    (data buf1 : List Nat) (alt1 : Bool) (fsm1 : Nat → Option (List Nat))
    (hlen : data.length = MACRO_BUFFER_SIZE)
    (hgood : macroRunsGood data = true)
    (hupd : nvm_dynamic_keymap_macro_update_buffer (List.replicate MACRO_BUFFER_SIZE 0)
        false 0 MACRO_BUFFER_SIZE data = (buf1, alt1))
    (hsave : nvm_dynamic_keymap_macro_save buf1 alt1 (fun _ => none) = (fsm1, false)) :
    nvm_dynamic_keymap_macro_load fsm1 = buf1
    ∧ ∀ offset size,
        nvm_dynamic_keymap_macro_read_buffer (nvm_dynamic_keymap_macro_load fsm1)
            offset size
          = nvm_dynamic_keymap_macro_read_buffer buf1 offset size := by
  have hbuf1 : buf1 = data := by
    have := macro_update_full_from_zero data hlen
    rw [hupd] at this
    exact this
  subst hbuf1
  have hload : nvm_dynamic_keymap_macro_load fsm1 = buf1 := by
    cases alt1 with
    | false =>
      -- nothing altered: no file is written, and the buffer was all zeros
      have hfsm : fsm1 = (fun _ => none) := by
        unfold nvm_dynamic_keymap_macro_save at hsave
        simp only [if_neg (by simp : ¬ false = true)] at hsave
        exact (congrArg Prod.fst hsave).symm
      -- altered = false forces the compared windows to be equal,
      -- so the installed buffer is the zero buffer
      have hzero : List.replicate MACRO_BUFFER_SIZE 0 = buf1 := by
        unfold nvm_dynamic_keymap_macro_update_buffer at hupd
        simp only [Nat.zero_add, ge_iff_le, le_refl, if_true, Nat.sub_zero,
          List.drop_zero, List.take_replicate, Nat.min_self,
          List.take_of_length_le (le_of_eq hlen)] at hupd
        by_cases heq : List.replicate MACRO_BUFFER_SIZE 0 = buf1
        · exact heq
        · rw [if_neg heq] at hupd
          exact absurd (congrArg Prod.snd hupd) (by simp)
      rw [hfsm]
      unfold nvm_dynamic_keymap_macro_load
      rw [macro_load_loop_none _ _ _ _ _ rfl]
      exact hzero
    | true =>
      have hfsm : fsm1 = nvm_dynamic_keymap_macro_save_loop buf1 (fun _ => none) 0 := by
        unfold nvm_dynamic_keymap_macro_save at hsave
        simp only [if_pos rfl] at hsave
        exact (congrArg Prod.fst hsave).symm
      rw [hfsm]
      unfold nvm_dynamic_keymap_macro_load
      have := macro_save_load_aligned buf1.length buf1 (fun _ => none) 0
        (List.replicate MACRO_BUFFER_SIZE 0) 0 le_rfl (by omega)
        (by simp) (by simp [hlen]) (fun _ _ => rfl) hgood
      rw [hlen] at this
      simpa using this
  exact ⟨hload, fun offset size => by rw [hload]⟩

/-- Witness for claim C6 (amended): the buffer holding the single macro "hi"
at index 0 round-trips. -/
theorem nvm_dynamic_keymap_macro_save_load_roundtrip_witness :
    (104 :: 105 :: 0 :: List.replicate 1021 0 : List Nat).length = MACRO_BUFFER_SIZE
    ∧ macroRunsGood (104 :: 105 :: 0 :: List.replicate 1021 0) = true
    ∧ nvm_dynamic_keymap_macro_load
        (nvm_dynamic_keymap_macro_save_loop (104 :: 105 :: 0 :: List.replicate 1021 0)
          (fun _ => none) 0)
      = 104 :: 105 :: 0 :: List.replicate 1021 0 := by
  have hlen : (104 :: 105 :: 0 :: List.replicate 1021 0 : List Nat).length
      = MACRO_BUFFER_SIZE := by
    simp only [List.length_cons, List.length_replicate, MACRO_BUFFER_SIZE]
  have hgood : macroRunsGood (104 :: 105 :: 0 :: List.replicate 1021 0) = true := by
    unfold macroRunsGood
    rw [macroRuns_cons _ (List.cons_ne_nil _ _)]
    rw [show ((104 :: 105 :: 0 :: List.replicate 1021 0 : List Nat).takeWhile
        (fun b => decide (b ≠ 0))) = [104, 105] from rfl]
    rw [show (104 :: 105 :: 0 :: List.replicate 1021 0 : List Nat).drop
        (([104, 105] : List Nat).length + 1) = List.replicate 1021 0 from rfl]
    rw [List.dropWhile_cons_of_pos (by decide)]
    have hall := macroRuns_replicate_zero_all 1021
    have hsub := List.dropWhile_sublist (l := macroRuns (List.replicate 1021 0))
      (fun r => decide (r ≠ []))
    rw [List.all_eq_true] at hall ⊢
    intro x hx
    exact hall x (hsub.subset hx)
  have hupd : nvm_dynamic_keymap_macro_update_buffer (List.replicate MACRO_BUFFER_SIZE 0)
      false 0 MACRO_BUFFER_SIZE (104 :: 105 :: 0 :: List.replicate 1021 0)
      = (104 :: 105 :: 0 :: List.replicate 1021 0, true) := by
    have hne : ¬ ((List.replicate MACRO_BUFFER_SIZE 0 : List Nat)
        = 104 :: 105 :: 0 :: List.replicate 1021 0) := by
      intro h
      have h0 := congrArg (fun l : List Nat => l.getD 0 99) h
      rw [show (MACRO_BUFFER_SIZE : Nat) = 1023 + 1 from by norm_num [MACRO_BUFFER_SIZE],
        List.replicate_succ] at h0
      simp only [List.getD_cons_zero] at h0
      omega
    unfold nvm_dynamic_keymap_macro_update_buffer
    simp only [Nat.zero_add, ge_iff_le, le_refl, if_true, Nat.sub_zero, List.drop_zero,
      List.take_replicate, Nat.min_self, List.take_of_length_le (le_of_eq hlen)]
    rw [if_neg hne]
    simp only [List.take_zero, Nat.zero_min, List.nil_append, List.drop_replicate,
      Nat.sub_self, List.replicate_zero, List.append_nil]
  have hsave : nvm_dynamic_keymap_macro_save (104 :: 105 :: 0 :: List.replicate 1021 0)
      true (fun _ => none)
      = (nvm_dynamic_keymap_macro_save_loop (104 :: 105 :: 0 :: List.replicate 1021 0)
          (fun _ => none) 0, false) := rfl
  exact ⟨hlen, hgood,
    (nvm_dynamic_keymap_macro_save_load_roundtrip _ _ _ _ hlen hgood hupd hsave).1⟩

/-- Claim C6 counterexample.  Install the buffer "\0hi\0..." (an empty macro
slot 0 followed by the macro "hi" as run 1).  Save writes "hi" to file
macros/01 and writes nothing to macros/00; load stops at the missing file
macros/00, leaving the reconstructed buffer all zero.  Reading 2 bytes from
offset 1 returns [0, 0] after the round trip although the installed buffer
held [104, 105] there, refuting the unconditional round-trip claim. -/
theorem nvm_dynamic_keymap_macro_roundtrip_failure :
    nvm_dynamic_keymap_macro_read_buffer
        (nvm_dynamic_keymap_macro_load
          ((nvm_dynamic_keymap_macro_save
            (nvm_dynamic_keymap_macro_update_buffer (List.replicate MACRO_BUFFER_SIZE 0)
              false 0 MACRO_BUFFER_SIZE
              (0 :: 104 :: 105 :: 0 :: List.replicate 1020 0)).1
            (nvm_dynamic_keymap_macro_update_buffer (List.replicate MACRO_BUFFER_SIZE 0)
              false 0 MACRO_BUFFER_SIZE
              (0 :: 104 :: 105 :: 0 :: List.replicate 1020 0)).2
            (fun _ => none)).1))
        1 2
      = [0, 0]
    ∧ nvm_dynamic_keymap_macro_read_buffer
        (nvm_dynamic_keymap_macro_update_buffer (List.replicate MACRO_BUFFER_SIZE 0)
          false 0 MACRO_BUFFER_SIZE (0 :: 104 :: 105 :: 0 :: List.replicate 1020 0)).1
        1 2
      = [104, 105] := by
  have hlen : (0 :: 104 :: 105 :: 0 :: List.replicate 1020 0 : List Nat).length
      = MACRO_BUFFER_SIZE := by
    simp only [List.length_cons, List.length_replicate, MACRO_BUFFER_SIZE]
  have hupd : nvm_dynamic_keymap_macro_update_buffer (List.replicate MACRO_BUFFER_SIZE 0)
      false 0 MACRO_BUFFER_SIZE (0 :: 104 :: 105 :: 0 :: List.replicate 1020 0)
      = (0 :: 104 :: 105 :: 0 :: List.replicate 1020 0, true) := by
    have hne : ¬ ((List.replicate MACRO_BUFFER_SIZE 0 : List Nat)
        = 0 :: 104 :: 105 :: 0 :: List.replicate 1020 0) := by
      intro h
      have h1 := congrArg (fun l : List Nat => l.getD 1 99) h
      rw [show (MACRO_BUFFER_SIZE : Nat) = 1022 + 1 + 1 from by
          norm_num [MACRO_BUFFER_SIZE],
        List.replicate_succ, List.replicate_succ] at h1
      simp only [List.getD_cons_succ, List.getD_cons_zero] at h1
      omega
    unfold nvm_dynamic_keymap_macro_update_buffer
    simp only [Nat.zero_add, ge_iff_le, le_refl, if_true, Nat.sub_zero, List.drop_zero,
      List.take_replicate, Nat.min_self, List.take_of_length_le (le_of_eq hlen)]
    rw [if_neg hne]
    simp only [List.take_zero, Nat.zero_min, List.nil_append, List.drop_replicate,
      Nat.sub_self, List.replicate_zero, List.append_nil]
  rw [hupd]
  have hstep1 : nvm_dynamic_keymap_macro_save_loop
      (0 :: 104 :: 105 :: 0 :: List.replicate 1020 0) (fun _ => none) 0
      = nvm_dynamic_keymap_macro_save_loop
        (104 :: 105 :: 0 :: List.replicate 1020 0) (fun _ => none) 1 := by
    rw [macro_save_loop_cons _ _ _ (List.cons_ne_nil _ _)]
    rw [show ((0 :: 104 :: 105 :: 0 :: List.replicate 1020 0 : List Nat).takeWhile
        (fun b => decide (b ≠ 0))) = [] from rfl]
    simp only [List.length_nil, lt_self_iff_false, if_false, Nat.zero_add, List.drop_one,
      List.tail_cons]
  have hfsm0 : (nvm_dynamic_keymap_macro_save
      (0 :: 104 :: 105 :: 0 :: List.replicate 1020 0) true (fun _ => none)).1 0 = none := by
    show nvm_dynamic_keymap_macro_save_loop
      (0 :: 104 :: 105 :: 0 :: List.replicate 1020 0) (fun _ => none) 0 0 = none
    rw [hstep1]
    exact macro_save_loop_frame (104 :: 105 :: 0 :: List.replicate 1020 0).length
      _ _ _ 0 le_rfl (by omega)
  have hload : nvm_dynamic_keymap_macro_load
      (nvm_dynamic_keymap_macro_save
        (0 :: 104 :: 105 :: 0 :: List.replicate 1020 0) true (fun _ => none)).1
      = List.replicate MACRO_BUFFER_SIZE 0 := by
    unfold nvm_dynamic_keymap_macro_load
    rw [macro_load_loop_none _ _ _ _ _ hfsm0]
  rw [hload]
  exact ⟨rfl, rfl⟩

/-! ### Keymap store (nvm_dynamic_keymap.c lines 26-222, 351-373, 455-472)

The per-layer RAM cache, the altered-key bitmap, the altered counts and the
dirty-layer mask.  In the C source the altered bitmap is an array of uint32
words with bit (index mod 32) of word (index / 32) standing for key index
index = row * MATRIX_COLS + col; each such bit is only ever set, cleared and
tested individually, so the bitmap is modelled as a Bool-valued function of
the key index.  uint16 quantities (keycodes, altered counts, the 16-bit
layer_state_t dirty mask) are reduced modulo 65536 where the C types
truncate.  The layer file "layers/keyNN" is file NN of a directory modelled
as a function from layer number to Option (byte list).

The theorems are parameterized over the build-time constants: L is
DYNAMIC_KEYMAP_LAYER_COUNT, R is MATRIX_ROWS, C is MATRIX_COLS and raw is
keycode_at_keymap_location_raw. -/

/-- Number of bits of layer_state_t: 8 * sizeof(layer_state_t), with the QMK
default LAYER_STATE_16BIT.  The save and load loops iterate over this many
layer indices. -/
def LAYER_STATE_BITS : Nat := 16

/-- DYNAMIC_KEYMAP_LAYER_COUNT with its QMK default value 4. -/
def DYNAMIC_KEYMAP_LAYER_COUNT : Nat := 4

structure KeymapState where
  cache : Nat → Nat → Nat → Nat
  altered : Nat → Nat → Bool
  alteredCount : Nat → Nat
  dirty : Nat

/-- Translation of is_key_altered (lines 83-87). -/
def is_key_altered (C : Nat) (s : KeymapState) (layer row col : Nat) : Bool :=
  s.altered layer (row * C + col)

/-- Translation of set_key_altered (lines 89-106): flip the bit for the key
index and adjust the 16-bit altered count by plus or minus one when the bit
actually changes. -/
def set_key_altered (C : Nat) (s : KeymapState) (layer row col : Nat) (val : Bool) :
    KeymapState :=
  let index := row * C + col
  let orig := s.altered layer index
  { s with
    altered := fun l i => if l = layer ∧ i = index then val else s.altered l i,
    alteredCount := fun l =>
      if l = layer ∧ val ≠ orig then
        (if val then (s.alteredCount layer + 1) % 65536
         else (s.alteredCount layer + 65535) % 65536)
      else s.alteredCount l }

/-- Translation of nvm_dynamic_keymap_read_keycode (lines 133-136); KC_NO
is 0. -/
def nvm_dynamic_keymap_read_keycode (L R C : Nat) (s : KeymapState)
    (layer row col : Nat) : Nat :=
  if layer ≥ L ∨ row ≥ R ∨ col ≥ C then 0 else s.cache layer row col

/-- Translation of nvm_dynamic_keymap_update_keycode (lines 138-143): bounds
check, write the cache, set the altered bit to whether the keycode differs
from the raw default, and mark the layer dirty. -/
def nvm_dynamic_keymap_update_keycode (L R C : Nat) (raw : Nat → Nat → Nat → Nat)
    (s : KeymapState) (layer row col keycode : Nat) : KeymapState :=
  if layer ≥ L ∨ row ≥ R ∨ col ≥ C then s
  else
    let kc := keycode % 65536
    let s1 := { s with cache := fun l r c =>
      if l = layer ∧ r = row ∧ c = col then kc else s.cache l r c }
    let s2 := set_key_altered C s1 layer row col (decide (kc ≠ raw layer row col))
    { s2 with dirty := (s2.dirty ||| 2 ^ layer) % 65536 }

/-- Translation of nvm_dynamic_keymap_reset_cache_layer_to_raw (lines
458-466): restore the raw defaults on the layer's grid and clear its altered
bitmap and count.  Note that the C function performs these array writes with
no bounds check on `layer`. -/
def nvm_dynamic_keymap_reset_cache_layer_to_raw (R C : Nat)
    (raw : Nat → Nat → Nat → Nat) (s : KeymapState) (layer : Nat) : KeymapState :=
  { s with
    cache := fun l r c => if l = layer ∧ r < R ∧ c < C then raw l r c else s.cache l r c,
    altered := fun l i => if l = layer then false else s.altered l i,
    alteredCount := fun l => if l = layer then 0 else s.alteredCount l }

/-- Little-endian bytes of a uint16 value as laid out in memory. -/
def u16leBytes (v : Nat) : List Nat := [v % 256, v / 256 % 256]

/-- Bytes written in the full-grid branch of nvm_dynamic_keymap_save (lines
164-167): write_mode 0 followed by the row-major uint16 grid; flat key index
i corresponds to row i / C, column i % C of the memcpy'd 2-dimensional
array. -/
def keymap_full_grid_bytes (R C : Nat) (s : KeymapState) (layer : Nat) : List Nat :=
  0 :: ((List.range (R * C)).map
    (fun i => u16leBytes (s.cache layer (i / C) (i % C)))).flatten

/-- Row-major list of altered key indices of a layer, as visited by the
override loop of nvm_dynamic_keymap_save (lines 172-181). -/
def keymap_altered_indices (R C : Nat) (s : KeymapState) (layer : Nat) : List Nat :=
  (List.range (R * C)).filter (fun i => s.altered layer i)

/-- One packed keymap_override_entry_t: row and column as uint8, keycode as
little-endian uint16. -/
def keymap_override_entry_bytes (C : Nat) (s : KeymapState) (layer i : Nat) : List Nat :=
  [(i / C) % 256, (i % C) % 256] ++ u16leBytes (s.cache layer (i / C) (i % C))

/-- Bytes written in the override branch of nvm_dynamic_keymap_save (lines
168-182): write_mode 1 followed by the override entries; the written size is
1 + 4 * altered_count bytes (matching the fs_update_block size argument),
which equals the entry list exactly when the altered count agrees with the
bitmap's population count. -/
def keymap_override_bytes (R C : Nat) (s : KeymapState) (layer : Nat) : List Nat :=
  (1 :: ((keymap_altered_indices R C s layer).map
    (keymap_override_entry_bytes C s layer)).flatten).take (1 + 4 * s.alteredCount layer)

/-- Translation of nvm_dynamic_keymap_save (lines 145-188): skip everything
when no layer is dirty; otherwise, for each dirty layer of the 16-bit dirty
mask, delete the layer file when nothing is altered, write the full grid when
it is no larger than the override list, and write the override list
otherwise; finally clear the dirty mask. -/
def nvm_dynamic_keymap_save (R C : Nat) (s : KeymapState)
    (fsk : Nat → Option (List Nat)) : KeymapState × (Nat → Option (List Nat)) :=
  if s.dirty = 0 then (s, fsk)
  else
    ({ s with dirty := 0 },
     (List.range LAYER_STATE_BITS).foldl (fun g layer =>
        if s.dirty.testBit layer then
          if s.alteredCount layer = 0 then (fun m => if m = layer then none else g m)
          else if R * C * 2 ≤ 4 * s.alteredCount layer then
            (fun m => if m = layer then some (keymap_full_grid_bytes R C s layer) else g m)
          else
            (fun m => if m = layer then some (keymap_override_bytes R C s layer) else g m)
        else g) fsk)

/-- Little-endian uint16 read from the scratch bytes. -/
def keymap_decode_u16 (bytes : List Nat) (off : Nat) : Nat :=
  bytes.getD off 0 + 256 * bytes.getD (off + 1) 0

/-- Full-grid replay loop of nvm_dynamic_keymap_load (lines 203-209): feed
scratch.keymap_layer[row][col] (the i-th uint16 of the payload, in row-major
order) back through nvm_dynamic_keymap_update_keycode. -/
def keymap_replay_full (L R C : Nat) (raw : Nat → Nat → Nat → Nat) (layer : Nat)
    (bytes : List Nat) (s : KeymapState) (i cnt : Nat) : KeymapState :=
  match cnt with
  | 0 => s
  | cnt' + 1 =>
    keymap_replay_full L R C raw layer bytes
      (nvm_dynamic_keymap_update_keycode L R C raw s layer (i / C) (i % C)
        (keymap_decode_u16 bytes (1 + 2 * i)))
      (i + 1) cnt'

/-- Override replay loop of nvm_dynamic_keymap_load (lines 210-219): feed
each 4-byte override entry back through nvm_dynamic_keymap_update_keycode. -/
def keymap_replay_overrides (L R C : Nat) (raw : Nat → Nat → Nat → Nat) (layer : Nat)
    (bytes : List Nat) (s : KeymapState) (j cnt : Nat) : KeymapState :=
  match cnt with
  | 0 => s
  | cnt' + 1 =>
    keymap_replay_overrides L R C raw layer bytes
      (nvm_dynamic_keymap_update_keycode L R C raw s layer
        (bytes.getD (1 + 4 * j) 0) (bytes.getD (2 + 4 * j) 0)
        (keymap_decode_u16 bytes (3 + 4 * j)))
      (j + 1) cnt'

/-- One iteration of the load loop (lines 191-221): reset the layer to raw,
then if the layer file exists dispatch on its mode byte, replaying either the
full grid or (bytes_read - 1) / 4 override entries. -/
def keymap_load_layer (L R C : Nat) (raw : Nat → Nat → Nat → Nat)
    (fsk : Nat → Option (List Nat)) (s : KeymapState) (layer : Nat) : KeymapState :=
  let s1 := nvm_dynamic_keymap_reset_cache_layer_to_raw R C raw s layer
  match fsk layer with
  | none => s1
  | some bytes =>
    if bytes.getD 0 0 = 0 then keymap_replay_full L R C raw layer bytes s1 0 (R * C)
    else keymap_replay_overrides L R C raw layer bytes s1 0 ((bytes.length - 1) / 4)

/-- Translation of nvm_dynamic_keymap_load (lines 190-222): iterate the load
step over layer indices 0 .. 8 * sizeof(layer_state_t) - 1. -/
def nvm_dynamic_keymap_load (L R C : Nat) (raw : Nat → Nat → Nat → Nat)
    (s : KeymapState) (fsk : Nat → Option (List Nat)) : KeymapState :=
  (List.range LAYER_STATE_BITS).foldl (keymap_load_layer L R C raw fsk) s

/-- Translation of nvm_dynamic_keymap_erase (lines 115-122): remove the
layers directory (all layer files) and reset the cache of every layer below
keymap_layer_count() to the raw defaults.  The dirty mask is not cleared. -/
def nvm_dynamic_keymap_erase (L R C : Nat) (raw : Nat → Nat → Nat → Nat)
    (s : KeymapState) (_fsk : Nat → Option (List Nat)) :
    KeymapState × (Nat → Option (List Nat)) :=
  ((List.range L).foldl (nvm_dynamic_keymap_reset_cache_layer_to_raw R C raw) s,
   fun _ => none)

/-- Boot state of the store: the RAM cache equals the raw defaults (the
static arrays are zero-initialized and the post-init load resets every layer
to raw), nothing altered, nothing dirty, no layer files. -/
def keymapInitState (raw : Nat → Nat → Nat → Nat) : KeymapState :=
  ⟨fun l r c => raw l r c, fun _ _ => false, fun _ => 0, 0⟩

/-- Public operations of the keymap store, for stating invariants over
arbitrary operation sequences. -/
inductive KeymapOp where
  | update (layer row col keycode : Nat)
  | save
  | load
  | erase

/-- One public operation applied to the store state and the layer file
directory. -/
def keymap_step (L R C : Nat) (raw : Nat → Nat → Nat → Nat)
    (st : KeymapState × (Nat → Option (List Nat))) (op : KeymapOp) :
    KeymapState × (Nat → Option (List Nat)) :=
  match op with
  | .update layer row col kc =>
    (nvm_dynamic_keymap_update_keycode L R C raw st.1 layer row col kc, st.2)
  | .save => nvm_dynamic_keymap_save R C st.1 st.2
  | .load => (nvm_dynamic_keymap_load L R C raw st.1 st.2, st.2)
  | .erase => nvm_dynamic_keymap_erase L R C raw st.1 st.2

/-- Layer indices at which the load loop of nvm_dynamic_keymap_load invokes
nvm_dynamic_keymap_reset_cache_layer_to_raw (line 194): every iteration of
the loop over 0 .. 8 * sizeof(layer_state_t) - 1 does so unconditionally,
before any bounds check, and that call writes
dynamic_keymap_layer_cache[layer], dynamic_keymap_altered_count[layer] and
dynamic_keymap_altered_keys[layer] directly. -/
def nvm_dynamic_keymap_load_reset_layers : List Nat := List.range LAYER_STATE_BITS

/-- Helper: length of the concatenation of fixed-size blocks. -/
theorem flatten_blocks_length (B : Nat) :
    ∀ bs : List (List Nat), (∀ b ∈ bs, b.length = B) →
      bs.flatten.length = B * bs.length := by
  intro bs
  induction bs with
  | nil => intro _; simp
  | cons b bs' ih =>
    intro hB
    simp only [List.flatten_cons, List.length_append, List.length_cons,
      hB b (List.mem_cons_self _ _), ih (fun x hx => hB x (List.mem_cons_of_mem _ hx))]
    ring

/-- Helper: indexing into a concatenation of fixed-size blocks. -/
theorem flatten_blocks_getD (B : Nat) :
    ∀ (bs : List (List Nat)) (j k : Nat), (∀ b ∈ bs, b.length = B) → k < B →
      j < bs.length → bs.flatten.getD (B * j + k) 0 = (bs.getD j []).getD k 0 := by
  intro bs
  induction bs with
  | nil => intro j k _ _ hj; simp at hj
  | cons b bs' ih =>
    intro j k hB hk hj
    have hblen : b.length = B := hB b (List.mem_cons_self _ _)
    match j with
    | 0 =>
      simp only [Nat.mul_zero, Nat.zero_add, List.flatten_cons, List.getD_cons_zero]
      rw [List.getD_append _ _ _ _ (by omega)]
    | j' + 1 =>
      simp only [List.flatten_cons, List.getD_cons_succ]
      rw [show B * (j' + 1) + k = b.length + (B * j' + k) from by rw [hblen]; ring]
      rw [List.getD_append_right _ _ _ _ (by omega)]
      rw [show b.length + (B * j' + k) - b.length = B * j' + k from by omega]
      exact ih j' k (fun x hx => hB x (List.mem_cons_of_mem _ hx)) hk
        (by simpa using hj)

/-- Helper: default-valued indexing into a mapped range. -/
theorem getD_map_range (N j : Nat) (f : Nat → List Nat) (hj : j < N) :
    ((List.range N).map f).getD j [] = f j := by
  rw [List.getD_eq_getElem _ _ (by simpa using hj)]
  simp

/-- Helper: flipping one bit of a boolean function changes the number of set
positions of a range by the difference of the old and new values. -/
theorem filter_range_update_length (N idx : Nat) (f : Nat → Bool) (v : Bool)
    (hidx : idx < N) :
    ((List.range N).filter (fun i => if i = idx then v else f i)).length
        + (if f idx then 1 else 0)
      = ((List.range N).filter f).length + (if v then 1 else 0) := by
  induction N with
  | zero => omega
  | succ N ih =>
    rw [List.range_succ, List.filter_append, List.filter_append,
      List.length_append, List.length_append]
    by_cases hN : idx = N
    · subst hN
      have hcong : (List.range idx).filter (fun i => if i = idx then v else f i)
          = (List.range idx).filter f := by
        apply List.filter_congr
        intro a ha
        have haidx : ¬ a = idx := by simp only [List.mem_range] at ha; omega
        simp [haidx]
      rw [hcong]
      by_cases hv : v <;> by_cases hf : f idx <;>
        simp [List.filter, hv, hf]
    · have hidx' : idx < N := by omega
      have hlast : ([N].filter (fun i => if i = idx then v else f i)) = [N].filter f := by
        simp [List.filter, show ¬ N = idx from by omega]
      rw [hlast]
      have := ih hidx'
      omega

/-- Helper: the flat key index of an in-range position is in range. -/
theorem key_index_lt (R C r c : Nat) (hr : r < R) (hc : c < C) : r * C + c < R * C := by
  calc r * C + c < r * C + C := by omega
    _ = (r + 1) * C := by ring
    _ ≤ R * C := Nat.mul_le_mul_right C hr

/-- Helper: the flat key index determines the position. -/
theorem key_index_inj (C r c r' c' : Nat) (hc : c < C) (hc' : c' < C)
    (h : r * C + c = r' * C + c') : r = r' ∧ c = c' := by
  have hdiv : ∀ a b : Nat, b < C → (a * C + b) / C = a := by
    intro a b hb
    rw [Nat.add_comm, Nat.add_mul_div_right _ _ (by omega : 0 < C),
      Nat.div_eq_of_lt hb]
    omega
  have hmod : ∀ a b : Nat, b < C → (a * C + b) % C = b := by
    intro a b hb
    rw [Nat.add_comm, Nat.add_mul_mod_self_right]
    exact Nat.mod_eq_of_lt hb
  constructor
  · rw [← hdiv r c hc, ← hdiv r' c' hc', h]
  · rw [← hmod r c hc, ← hmod r' c' hc', h]

/-- Helper: reconstruction of a position from its flat key index. -/
theorem key_index_div_mod (C r c : Nat) (hc : c < C) :
    (r * C + c) / C = r ∧ (r * C + c) % C = c := by
  constructor
  · rw [Nat.add_comm, Nat.add_mul_div_right _ _ (by omega : 0 < C),
      Nat.div_eq_of_lt hc]
    omega
  · rw [Nat.add_comm, Nat.add_mul_mod_self_right]
    exact Nat.mod_eq_of_lt hc

/-- Cache write of an in-range update. -/
theorem update_keycode_cache_eq (L R C : Nat) (raw : Nat → Nat → Nat → Nat)
    (s : KeymapState) (layer row col kc : Nat)
    (hl : layer < L) (hr : row < R) (hc : col < C) :
    (nvm_dynamic_keymap_update_keycode L R C raw s layer row col kc).cache layer row col
      = kc % 65536 := by
  unfold nvm_dynamic_keymap_update_keycode set_key_altered
  rw [if_neg (by omega)]
  simp

/-- An update leaves every other cache entry unchanged. -/
theorem update_keycode_cache_ne (L R C : Nat) (raw : Nat → Nat → Nat → Nat)
    (s : KeymapState) (layer row col kc l r c : Nat)
    (hne : ¬ (l = layer ∧ r = row ∧ c = col)) :
    (nvm_dynamic_keymap_update_keycode L R C raw s layer row col kc).cache l r c
      = s.cache l r c := by
  unfold nvm_dynamic_keymap_update_keycode set_key_altered
  by_cases hb : layer ≥ L ∨ row ≥ R ∨ col ≥ C
  · rw [if_pos hb]
  · rw [if_neg hb]
    simp only []
    rw [if_neg hne]

/-- An update touches no other layer's altered bits or count. -/
theorem update_keycode_frame_layer (L R C : Nat) (raw : Nat → Nat → Nat → Nat)
    (s : KeymapState) (layer row col kc l : Nat) (hne : ¬ l = layer) :
    (∀ i, (nvm_dynamic_keymap_update_keycode L R C raw s layer row col kc).altered l i
        = s.altered l i)
    ∧ (nvm_dynamic_keymap_update_keycode L R C raw s layer row col kc).alteredCount l
        = s.alteredCount l := by
  unfold nvm_dynamic_keymap_update_keycode set_key_altered
  by_cases hb : layer ≥ L ∨ row ≥ R ∨ col ≥ C
  · rw [if_pos hb]
    exact ⟨fun i => rfl, rfl⟩
  · rw [if_neg hb]
    constructor
    · intro i
      simp only []
      rw [if_neg (by tauto)]
    · simp only []
      rw [if_neg (by tauto)]

/-- Invariant of the keymap store (spec section 3): within the configured
dimensions, the altered bit of a key holds exactly when its cached keycode
differs from the raw default, the altered count of each layer equals the
population count of its altered bitmap, and cached keycodes fit in 16
bits. -/
def KeymapInv (L R C : Nat) (raw : Nat → Nat → Nat → Nat) (s : KeymapState) : Prop :=
  (∀ l r c, l < L → r < R → c < C →
    ((s.altered l (r * C + c) = true) ↔ s.cache l r c ≠ raw l r c))
  ∧ (∀ l, l < L → (keymap_altered_indices R C s l).length = s.alteredCount l)
  ∧ (∀ l r c, l < L → r < R → c < C → s.cache l r c < 65536)

/-- The invariant holds in the boot state. -/
theorem keymap_inv_init (L R C : Nat) (raw : Nat → Nat → Nat → Nat)
    (hraw : ∀ l r c, raw l r c < 65536) :
    KeymapInv L R C raw (keymapInitState raw) := by
  refine ⟨fun l r c _ _ _ => by simp [keymapInitState], fun l _ => ?_,
    fun l r c _ _ _ => hraw l r c⟩
  simp [keymapInitState, keymap_altered_indices]

/-- nvm_dynamic_keymap_update_keycode preserves the invariant. -/
theorem keymap_inv_update (L R C : Nat) (raw : Nat → Nat → Nat → Nat)
    (s : KeymapState) (layer row col kc : Nat) (hRC : R * C < 65536)
    (hinv : KeymapInv L R C raw s) :
    KeymapInv L R C raw (nvm_dynamic_keymap_update_keycode L R C raw s layer row col kc) := by
  obtain ⟨ha, hb, hc16⟩ := hinv
  by_cases hguard : layer ≥ L ∨ row ≥ R ∨ col ≥ C
  · unfold nvm_dynamic_keymap_update_keycode
    rw [if_pos hguard]
    exact ⟨ha, hb, hc16⟩
  · push_neg at hguard
    obtain ⟨hlL, hrR, hcC⟩ := hguard
    have hidx : row * C + col < R * C := key_index_lt R C row col hrR hcC
    -- unfolded components of the updated state
    have hcache : ∀ l r c,
        (nvm_dynamic_keymap_update_keycode L R C raw s layer row col kc).cache l r c
          = if l = layer ∧ r = row ∧ c = col then kc % 65536 else s.cache l r c := by
      intro l r c
      unfold nvm_dynamic_keymap_update_keycode set_key_altered
      rw [if_neg (by omega)]
    have haltered : ∀ l i,
        (nvm_dynamic_keymap_update_keycode L R C raw s layer row col kc).altered l i
          = if l = layer ∧ i = row * C + col
            then decide (kc % 65536 ≠ raw layer row col) else s.altered l i := by
      intro l i
      unfold nvm_dynamic_keymap_update_keycode set_key_altered
      rw [if_neg (by omega)]
    have hcount : ∀ l,
        (nvm_dynamic_keymap_update_keycode L R C raw s layer row col kc).alteredCount l
          = if l = layer
              ∧ decide (kc % 65536 ≠ raw layer row col) ≠ s.altered layer (row * C + col)
            then (if decide (kc % 65536 ≠ raw layer row col)
              then (s.alteredCount layer + 1) % 65536
              else (s.alteredCount layer + 65535) % 65536)
            else s.alteredCount l := by
      intro l
      unfold nvm_dynamic_keymap_update_keycode set_key_altered
      rw [if_neg (by omega)]
    refine ⟨?_, ?_, ?_⟩
    · intro l r c hl hr hc
      rw [hcache, haltered]
      by_cases hpos : l = layer ∧ r = row ∧ c = col
      · obtain ⟨rfl, rfl, rfl⟩ := hpos
        simp
      · rw [if_neg hpos, if_neg ?hne]
        · exact ha l r c hl hr hc
        case hne =>
          rintro ⟨rfl, hkeq⟩
          exact hpos ⟨rfl, key_index_inj C r c row col hc hcC hkeq⟩
    · intro l hl
      rw [hcount]
      by_cases hll : l = layer
      · subst hll
        have hfilter : keymap_altered_indices R C
            (nvm_dynamic_keymap_update_keycode L R C raw s l row col kc) l
            = (List.range (R * C)).filter
              (fun i => if i = row * C + col
                then decide (kc % 65536 ≠ raw l row col) else s.altered l i) := by
          unfold keymap_altered_indices
          apply List.filter_congr
          intro i _
          rw [haltered]
          by_cases hi : i = row * C + col <;> simp [hi]
        rw [hfilter]
        have hflip := filter_range_update_length (R * C) (row * C + col)
          (fun i => s.altered l i) (decide (kc % 65536 ≠ raw l row col)) hidx
        have hlen_le : ((List.range (R * C)).filter (fun i => s.altered l i)).length
            ≤ R * C := by
          calc ((List.range (R * C)).filter (fun i => s.altered l i)).length
              ≤ (List.range (R * C)).length := List.length_filter_le _ _
            _ = R * C := List.length_range _
        have hlen_le2 : ((List.range (R * C)).filter
            (fun i => if i = row * C + col
              then decide (kc % 65536 ≠ raw l row col) else s.altered l i)).length
            ≤ R * C := by
          calc ((List.range (R * C)).filter
              (fun i => if i = row * C + col
                then decide (kc % 65536 ≠ raw l row col) else s.altered l i)).length
              ≤ (List.range (R * C)).length := List.length_filter_le _ _
            _ = R * C := List.length_range _
        have hbase := hb l hl
        unfold keymap_altered_indices at hbase
        by_cases hchange : decide (kc % 65536 ≠ raw l row col) = s.altered l (row * C + col)
        · rw [if_neg (by simp [hchange])]
          have : (List.range (R * C)).filter
              (fun i => if i = row * C + col
                then decide (kc % 65536 ≠ raw l row col) else s.altered l i)
              = (List.range (R * C)).filter (fun i => s.altered l i) := by
            apply List.filter_congr
            intro i _
            by_cases hi : i = row * C + col <;> simp [hi, hchange]
          rw [this]
          exact hbase
        · rw [if_pos ⟨rfl, by simpa using hchange⟩]
          rcases hv : decide (kc % 65536 ≠ raw l row col) with _ | _
          · rw [hv] at hflip hchange hlen_le2
            have horig : s.altered l (row * C + col) = true := by
              rcases ho : s.altered l (row * C + col) with _ | _
              · rw [ho] at hchange; simp at hchange
              · rfl
            simp only [horig, Bool.false_eq_true, Bool.true_eq_false, if_true,
              if_false] at hflip hlen_le2 ⊢
            omega
          · rw [hv] at hflip hchange hlen_le2
            have horig : s.altered l (row * C + col) = false := by
              rcases ho : s.altered l (row * C + col) with _ | _
              · rfl
              · rw [ho] at hchange; simp at hchange
            simp only [horig, Bool.false_eq_true, Bool.true_eq_false, if_true,
              if_false] at hflip hlen_le2 ⊢
            omega
      · rw [if_neg (by tauto)]
        have : keymap_altered_indices R C
            (nvm_dynamic_keymap_update_keycode L R C raw s layer row col kc) l
            = keymap_altered_indices R C s l := by
          unfold keymap_altered_indices
          apply List.filter_congr
          intro i _
          rw [haltered, if_neg (by tauto)]
        rw [this]
        exact hb l hl
    · intro l r c hl hr hc
      rw [hcache]
      by_cases hpos : l = layer ∧ r = row ∧ c = col
      · rw [if_pos hpos]; omega
      · rw [if_neg hpos]; exact hc16 l r c hl hr hc

/-- Helper: resetting a layer to the raw defaults preserves the invariant. -/
theorem keymap_inv_reset (L R C : Nat) (raw : Nat → Nat → Nat → Nat)
    (s : KeymapState) (layer : Nat) (hraw : ∀ l r c, raw l r c < 65536)
    (hinv : KeymapInv L R C raw s) :
    KeymapInv L R C raw (nvm_dynamic_keymap_reset_cache_layer_to_raw R C raw s layer) := by
  obtain ⟨ha, hb, hc16⟩ := hinv
  refine ⟨?_, ?_, ?_⟩
  · intro l r c hl hr hc
    simp only [nvm_dynamic_keymap_reset_cache_layer_to_raw]
    by_cases hll : l = layer
    · subst hll
      rw [if_pos rfl, if_pos ⟨rfl, hr, hc⟩]
      simp
    · rw [if_neg hll, if_neg (by tauto)]
      exact ha l r c hl hr hc
  · intro l hl
    by_cases hll : l = layer
    · subst hll
      have hflt : keymap_altered_indices R C
          (nvm_dynamic_keymap_reset_cache_layer_to_raw R C raw s l) l = [] := by
        unfold keymap_altered_indices nvm_dynamic_keymap_reset_cache_layer_to_raw
        simp
      rw [hflt]
      simp [nvm_dynamic_keymap_reset_cache_layer_to_raw]
    · have hflt : keymap_altered_indices R C
          (nvm_dynamic_keymap_reset_cache_layer_to_raw R C raw s layer) l
          = keymap_altered_indices R C s l := by
        unfold keymap_altered_indices nvm_dynamic_keymap_reset_cache_layer_to_raw
        simp only []
        apply List.filter_congr
        intro i _
        rw [if_neg hll]
      rw [hflt]
      simp only [nvm_dynamic_keymap_reset_cache_layer_to_raw]
      rw [if_neg hll]
      exact hb l hl
  · intro l r c hl hr hc
    simp only [nvm_dynamic_keymap_reset_cache_layer_to_raw]
    by_cases hll : l = layer
    · subst hll
      by_cases hin : r < R ∧ c < C
      · rw [if_pos ⟨rfl, hin⟩]; exact hraw l r c
      · rw [if_neg (by tauto)]; exact hc16 l r c hl hr hc
    · rw [if_neg (by tauto)]
      exact hc16 l r c hl hr hc

/-- Helper: the state component of nvm_dynamic_keymap_save satisfies the
invariant whenever its input does (only the dirty mask changes). -/
theorem keymap_inv_save (L R C : Nat) (raw : Nat → Nat → Nat → Nat)
    (s : KeymapState) (fsk : Nat → Option (List Nat))
    (hinv : KeymapInv L R C raw s) :
    KeymapInv L R C raw (nvm_dynamic_keymap_save R C s fsk).1 := by
  unfold nvm_dynamic_keymap_save
  by_cases hd : s.dirty = 0
  · rw [if_pos hd]; exact hinv
  · rw [if_neg hd]; exact hinv

/-- Helper: the full-grid replay loop preserves the invariant. -/
theorem keymap_inv_replay_full (L R C : Nat) (raw : Nat → Nat → Nat → Nat)
    (layer : Nat) (bytes : List Nat) (hRC : R * C < 65536) :
    ∀ (cnt i : Nat) (s : KeymapState), KeymapInv L R C raw s →
      KeymapInv L R C raw (keymap_replay_full L R C raw layer bytes s i cnt) := by
  intro cnt
  induction cnt with
  | zero => intro i s h; exact h
  | succ cnt' ih =>
    intro i s h
    exact ih (i + 1) _ (keymap_inv_update L R C raw s layer (i / C) (i % C) _ hRC h)

/-- Helper: the override replay loop preserves the invariant. -/
theorem keymap_inv_replay_overrides (L R C : Nat) (raw : Nat → Nat → Nat → Nat)
    (layer : Nat) (bytes : List Nat) (hRC : R * C < 65536) :
    ∀ (cnt j : Nat) (s : KeymapState), KeymapInv L R C raw s →
      KeymapInv L R C raw (keymap_replay_overrides L R C raw layer bytes s j cnt) := by
  intro cnt
  induction cnt with
  | zero => intro j s h; exact h
  | succ cnt' ih =>
    intro j s h
    exact ih (j + 1) _ (keymap_inv_update L R C raw s layer _ _ _ hRC h)

/-- Helper: one iteration of the load loop preserves the invariant. -/
theorem keymap_inv_load_layer (L R C : Nat) (raw : Nat → Nat → Nat → Nat)
    (fsk : Nat → Option (List Nat)) (s : KeymapState) (layer : Nat)
    (hRC : R * C < 65536) (hraw : ∀ l r c, raw l r c < 65536)
    (hinv : KeymapInv L R C raw s) :
    KeymapInv L R C raw (keymap_load_layer L R C raw fsk s layer) := by
  have hreset := keymap_inv_reset L R C raw s layer hraw hinv
  unfold keymap_load_layer
  rcases hf : fsk layer with _ | bytes
  · simpa using hreset
  · simp only []
    by_cases hm : bytes.getD 0 0 = 0
    · rw [if_pos hm]
      exact keymap_inv_replay_full L R C raw layer bytes hRC _ _ _ hreset
    · rw [if_neg hm]
      exact keymap_inv_replay_overrides L R C raw layer bytes hRC _ _ _ hreset

/-- Helper: a fold of load iterations preserves the invariant. -/
theorem keymap_inv_load_fold (L R C : Nat) (raw : Nat → Nat → Nat → Nat)
    (fsk : Nat → Option (List Nat)) (hRC : R * C < 65536)
    (hraw : ∀ l r c, raw l r c < 65536) :
    ∀ (ls : List Nat) (s : KeymapState), KeymapInv L R C raw s →
      KeymapInv L R C raw (ls.foldl (keymap_load_layer L R C raw fsk) s) := by
  intro ls
  induction ls with
  | nil => intro s h; exact h
  | cons a ls' ih =>
    intro s h
    exact ih _ (keymap_inv_load_layer L R C raw fsk s a hRC hraw h)

/-- Helper: nvm_dynamic_keymap_load preserves the invariant. -/
theorem keymap_inv_load (L R C : Nat) (raw : Nat → Nat → Nat → Nat)
    (s : KeymapState) (fsk : Nat → Option (List Nat))
    (hRC : R * C < 65536) (hraw : ∀ l r c, raw l r c < 65536)
    (hinv : KeymapInv L R C raw s) :
    KeymapInv L R C raw (nvm_dynamic_keymap_load L R C raw s fsk) :=
  keymap_inv_load_fold L R C raw fsk hRC hraw _ s hinv

/-- Helper: the state component of nvm_dynamic_keymap_erase satisfies the
invariant whenever its input does. -/
theorem keymap_inv_erase (L R C : Nat) (raw : Nat → Nat → Nat → Nat)
    (s : KeymapState) (fsk : Nat → Option (List Nat))
    (hraw : ∀ l r c, raw l r c < 65536) (hinv : KeymapInv L R C raw s) :
    KeymapInv L R C raw (nvm_dynamic_keymap_erase L R C raw s fsk).1 := by
  show KeymapInv L R C raw ((List.range L).foldl
    (nvm_dynamic_keymap_reset_cache_layer_to_raw R C raw) s)
  have : ∀ (ls : List Nat) (t : KeymapState), KeymapInv L R C raw t →
      KeymapInv L R C raw (ls.foldl
        (nvm_dynamic_keymap_reset_cache_layer_to_raw R C raw) t) := by
    intro ls
    induction ls with
    | nil => intro t h; exact h
    | cons a ls' ih => intro t h; exact ih _ (keymap_inv_reset L R C raw t a hraw h)
  exact this _ s hinv

/-- Helper: every public operation preserves the invariant of the state
component. -/
theorem keymap_inv_step (L R C : Nat) (raw : Nat → Nat → Nat → Nat)
    (st : KeymapState × (Nat → Option (List Nat))) (op : KeymapOp)
    (hRC : R * C < 65536) (hraw : ∀ l r c, raw l r c < 65536)
    (hinv : KeymapInv L R C raw st.1) :
    KeymapInv L R C raw (keymap_step L R C raw st op).1 := by
  match op with
  | .update layer row col kc =>
    exact keymap_inv_update L R C raw st.1 layer row col kc hRC hinv
  | .save => exact keymap_inv_save L R C raw st.1 st.2 hinv
  | .load => exact keymap_inv_load L R C raw st.1 st.2 hRC hraw hinv
  | .erase => exact keymap_inv_erase L R C raw st.1 st.2 hraw hinv

/-- Helper: the invariant holds after any sequence of public operations from
the boot state. -/
theorem keymap_inv_ops (L R C : Nat) (raw : Nat → Nat → Nat → Nat)
    (hRC : R * C < 65536) (hraw : ∀ l r c, raw l r c < 65536) (ops : List KeymapOp) :
    KeymapInv L R C raw
      (ops.foldl (keymap_step L R C raw) (keymapInitState raw, fun _ => none)).1 := by
  have : ∀ (os : List KeymapOp) (st : KeymapState × (Nat → Option (List Nat))),
      KeymapInv L R C raw st.1 →
      KeymapInv L R C raw (os.foldl (keymap_step L R C raw) st).1 := by
    intro os
    induction os with
    | nil => intro st h; exact h
    | cons o os' ih =>
      intro st h
      exact ih _ (keymap_inv_step L R C raw st o hRC hraw h)
  exact this ops _ (keymap_inv_init L R C raw hraw)

/-- Claim C2.  After any sequence of public keymap store operations (update,
save, load, erase) from the boot state, for every in-range layer and
position the altered-bitmap bit is set exactly when the cached keycode
differs from the raw compile-time default, and the number of set bits of
each layer's altered bitmap equals the layer's altered count. -/
theorem keymap_altered_invariant (L R C : Nat) (raw : Nat → Nat → Nat → Nat)
    (hRC : R * C < 65536) (hraw : ∀ l r c, raw l r c < 65536) (ops : List KeymapOp) :
    (∀ l r c, l < L → r < R → c < C →
      (((ops.foldl (keymap_step L R C raw)
          (keymapInitState raw, fun _ => none)).1.altered l (r * C + c) = true)
        ↔ (ops.foldl (keymap_step L R C raw)
            (keymapInitState raw, fun _ => none)).1.cache l r c ≠ raw l r c))
    ∧ (∀ l, l < L →
        (keymap_altered_indices R C
            (ops.foldl (keymap_step L R C raw)
              (keymapInitState raw, fun _ => none)).1 l).length
          = (ops.foldl (keymap_step L R C raw)
              (keymapInitState raw, fun _ => none)).1.alteredCount l) := by
  obtain ⟨ha, hb, _⟩ := keymap_inv_ops L R C raw hRC hraw ops
  exact ⟨ha, hb⟩

/-- Witness for claim C2 at a concrete 1-layer, 1-key store and the operation
sequence update; save; load. -/
theorem keymap_altered_invariant_witness :
    (1 * 1 < 65536)
    ∧ ((∀ l r c : Nat, (fun _ _ _ => (0 : Nat)) l r c < 65536))
    ∧ ((∀ l r c, l < 1 → r < 1 → c < 1 →
        ((([KeymapOp.update 0 0 0 5, KeymapOp.save, KeymapOp.load].foldl
            (keymap_step 1 1 1 (fun _ _ _ => 0))
            (keymapInitState (fun _ _ _ => 0), fun _ => none)).1.altered l (r * 1 + c)
              = true)
          ↔ ([KeymapOp.update 0 0 0 5, KeymapOp.save, KeymapOp.load].foldl
              (keymap_step 1 1 1 (fun _ _ _ => 0))
              (keymapInitState (fun _ _ _ => 0), fun _ => none)).1.cache l r c
                ≠ (fun _ _ _ => (0 : Nat)) l r c))
      ∧ (∀ l, l < 1 →
          (keymap_altered_indices 1 1
              ([KeymapOp.update 0 0 0 5, KeymapOp.save, KeymapOp.load].foldl
                (keymap_step 1 1 1 (fun _ _ _ => 0))
                (keymapInitState (fun _ _ _ => 0), fun _ => none)).1 l).length
            = ([KeymapOp.update 0 0 0 5, KeymapOp.save, KeymapOp.load].foldl
                (keymap_step 1 1 1 (fun _ _ _ => 0))
                (keymapInitState (fun _ _ _ => 0), fun _ => none)).1.alteredCount l)) :=
  ⟨by decide, fun _ _ _ => by norm_num,
   keymap_altered_invariant 1 1 1 (fun _ _ _ => 0) (by decide)
     (fun _ _ _ => by norm_num) [KeymapOp.update 0 0 0 5, KeymapOp.save, KeymapOp.load]⟩

/-- Claim C9 counterpart.  The load loop of nvm_dynamic_keymap_load iterates
layer indices 0 .. 8 * sizeof(layer_state_t) - 1 = 15 and calls
nvm_dynamic_keymap_reset_cache_layer_to_raw on every one of them with no
bounds check, so with the default DYNAMIC_KEYMAP_LAYER_COUNT = 4 the
per-layer arrays are written at indices 4 .. 15, past their last element:
the loop visits an index no smaller than the layer count, and a load over an
empty layer directory observably clears an altered bit stored at layer index
4 even though only layers 0 .. 3 exist. -/
theorem nvm_dynamic_keymap_load_oob_layer_access :
    (∃ layer ∈ nvm_dynamic_keymap_load_reset_layers, DYNAMIC_KEYMAP_LAYER_COUNT ≤ layer)
    ∧ (⟨fun _ _ _ => 7, fun _ _ => true, fun _ => 1, 0⟩ : KeymapState).altered 4 0 = true
    ∧ (nvm_dynamic_keymap_load DYNAMIC_KEYMAP_LAYER_COUNT 1 1 (fun _ _ _ => 0)
        ⟨fun _ _ _ => 7, fun _ _ => true, fun _ => 1, 0⟩ (fun _ => none)).altered 4 0
      = false := by
  refine ⟨⟨4, by decide, by decide⟩, rfl, ?_⟩
  decide

/-- Helper: looking up an index after folding pointwise directory updates
over a list of layer indices. -/
theorem foldl_update_lookup (F : Nat → Option (List Nat)) (p : Nat → Bool) :
    ∀ (ls : List Nat) (g : Nat → Option (List Nat)) (m : Nat),
      (ls.foldl (fun g layer =>
        if p layer then (fun x => if x = layer then F layer else g x) else g) g) m
      = if m ∈ ls ∧ p m = true then F m else g m := by
  intro ls
  induction ls with
  | nil => intro g m; simp
  | cons a ls' ih =>
    intro g m
    rw [List.foldl_cons, ih]
    by_cases hm : m ∈ ls' ∧ p m = true
    · rw [if_pos hm, if_pos ⟨List.mem_cons_of_mem _ hm.1, hm.2⟩]
    · rw [if_neg hm]
      by_cases hma : m = a
      · subst hma
        by_cases hp : p m = true
        · rw [if_pos hp]
          have hmem : m ∈ m :: ls' ∧ p m = true := ⟨List.mem_cons_self _ _, hp⟩
          rw [if_pos hmem]
          simp
        · have hnc : ¬ (m ∈ m :: ls' ∧ p m = true) := fun h => hp h.2
          rw [if_neg hnc, if_neg hp]
      · have hnc : ¬ (m ∈ a :: ls' ∧ p m = true) := by
          rintro ⟨hmem, hp⟩
          rcases List.mem_cons.mp hmem with h | h
          · exact hma h
          · exact hm ⟨h, hp⟩
        rw [if_neg hnc]
        by_cases hp : p a = true
        · rw [if_pos hp]
          simp [hma]
        · rw [if_neg hp]

/-- Helper: the layer directory after nvm_dynamic_keymap_save, looked up at
one layer index: dirty layers get deleted, the full grid, or the override
list according to the altered count, and clean layers keep their file. -/
theorem keymap_save_files (R C : Nat) (s : KeymapState)
    (fsk : Nat → Option (List Nat)) (hd : ¬ s.dirty = 0) (layer : Nat)
    (hlayer : layer < LAYER_STATE_BITS) :
    (nvm_dynamic_keymap_save R C s fsk).2 layer
      = if s.dirty.testBit layer then
          (if s.alteredCount layer = 0 then none
           else if R * C * 2 ≤ 4 * s.alteredCount layer then
             some (keymap_full_grid_bytes R C s layer)
           else some (keymap_override_bytes R C s layer))
        else fsk layer := by
  unfold nvm_dynamic_keymap_save
  rw [if_neg hd]
  show ((List.range LAYER_STATE_BITS).foldl (fun g layer =>
      if s.dirty.testBit layer then
        if s.alteredCount layer = 0 then (fun m => if m = layer then none else g m)
        else if R * C * 2 ≤ 4 * s.alteredCount layer then
          (fun m => if m = layer then some (keymap_full_grid_bytes R C s layer) else g m)
        else
          (fun m => if m = layer then some (keymap_override_bytes R C s layer) else g m)
      else g) fsk) layer = _
  have hstep : (fun (g : Nat → Option (List Nat)) (layer : Nat) =>
      if s.dirty.testBit layer then
        if s.alteredCount layer = 0 then (fun m => if m = layer then none else g m)
        else if R * C * 2 ≤ 4 * s.alteredCount layer then
          (fun m => if m = layer then some (keymap_full_grid_bytes R C s layer) else g m)
        else
          (fun m => if m = layer then some (keymap_override_bytes R C s layer) else g m)
      else g)
      = (fun (g : Nat → Option (List Nat)) (layer : Nat) =>
        if (fun l => s.dirty.testBit l) layer then
          (fun x => if x = layer then
            (fun l => if s.alteredCount l = 0 then none
             else if R * C * 2 ≤ 4 * s.alteredCount l then
               some (keymap_full_grid_bytes R C s l)
             else some (keymap_override_bytes R C s l)) layer
            else g x)
        else g) := by
    funext g l
    by_cases hdl : s.dirty.testBit l = true
    · rw [if_pos hdl, if_pos hdl]
      by_cases h0 : s.alteredCount l = 0
      · rw [if_pos h0]
        funext x
        by_cases hx : x = l <;> simp [hx, h0]
      · rw [if_neg h0]
        by_cases hmode : R * C * 2 ≤ 4 * s.alteredCount l
        · rw [if_pos hmode]
          funext x
          by_cases hx : x = l <;> simp [hx, h0, hmode]
        · rw [if_neg hmode]
          funext x
          by_cases hx : x = l <;> simp [hx, h0, hmode]
    · rw [if_neg hdl, if_neg hdl]
  rw [hstep, foldl_update_lookup
    (fun l => if s.alteredCount l = 0 then none
     else if R * C * 2 ≤ 4 * s.alteredCount l then some (keymap_full_grid_bytes R C s l)
     else some (keymap_override_bytes R C s l))
    (fun l => s.dirty.testBit l)]
  by_cases hdl : s.dirty.testBit layer = true
  · rw [if_pos ⟨List.mem_range.mpr hlayer, hdl⟩, if_pos hdl]
  · rw [if_neg (fun h => hdl h.2), if_neg hdl]

/-- Claim C3.  For a dirty layer, nvm_dynamic_keymap_save deletes the layer
file when the altered count is zero; otherwise it writes mode byte 0
followed by the whole row-major R x C keycode grid when the full-grid size
R*C*2 is at most the override-list size 4*altered_count, and otherwise mode
byte 1 followed by exactly altered_count override entries
\x7brow:u8, col:u8, keycode:u16le\x7d in row-major iteration order (the altered
count equals the bitmap's population count, as maintained by the store). -/
theorem keymap_save_layer_policy (R C : Nat) (s : KeymapState)
    (fsk : Nat → Option (List Nat)) (layer : Nat)
    (hlayer : layer < LAYER_STATE_BITS)
    (hdirty : s.dirty.testBit layer = true)
    (hcnt : (keymap_altered_indices R C s layer).length = s.alteredCount layer) :
    (nvm_dynamic_keymap_save R C s fsk).2 layer
      = if s.alteredCount layer = 0 then none
        else if R * C * 2 ≤ 4 * s.alteredCount layer then
          some (0 :: ((List.range (R * C)).map
            (fun i => u16leBytes (s.cache layer (i / C) (i % C)))).flatten)
        else
          some (1 :: ((keymap_altered_indices R C s layer).map
            (keymap_override_entry_bytes C s layer)).flatten) := by
  have hd : ¬ s.dirty = 0 := by
    intro h
    rw [h] at hdirty
    simp [Nat.zero_testBit] at hdirty
  rw [keymap_save_files R C s fsk hd layer hlayer, if_pos hdirty]
  by_cases h0 : s.alteredCount layer = 0
  · rw [if_pos h0, if_pos h0]
  · rw [if_neg h0, if_neg h0]
    by_cases hm : R * C * 2 ≤ 4 * s.alteredCount layer
    · rw [if_pos hm, if_pos hm]
      rfl
    · rw [if_neg hm, if_neg hm]
      congr 1
      unfold keymap_override_bytes
      have hblocks : ∀ b ∈ (keymap_altered_indices R C s layer).map
          (keymap_override_entry_bytes C s layer), b.length = 4 := by
        intro b hb
        obtain ⟨i, _, rfl⟩ := List.mem_map.mp hb
        rfl
      have hflat : ((keymap_altered_indices R C s layer).map
          (keymap_override_entry_bytes C s layer)).flatten.length
          = 4 * (keymap_altered_indices R C s layer).length := by
        rw [flatten_blocks_length 4 _ hblocks, List.length_map]
      apply List.take_of_length_le
      simp only [List.length_cons, hflat, hcnt]
      omega

/-- Witness for claim C3 at a concrete 1-row, 3-column layer with one
altered key, exercising the override branch. -/
theorem keymap_save_layer_policy_witness :
    (0 < LAYER_STATE_BITS)
    ∧ ((1 : Nat).testBit 0 = true)
    ∧ ((keymap_altered_indices 1 3
        ⟨fun _ _ _ => 5, fun l i => if l = 0 ∧ i = 0 then true else false,
         fun l => if l = 0 then 1 else 0, 1⟩ 0).length
      = (⟨fun _ _ _ => 5, fun l i => if l = 0 ∧ i = 0 then true else false,
         fun l => if l = 0 then 1 else 0, 1⟩ : KeymapState).alteredCount 0)
    ∧ ((nvm_dynamic_keymap_save 1 3
        ⟨fun _ _ _ => 5, fun l i => if l = 0 ∧ i = 0 then true else false,
         fun l => if l = 0 then 1 else 0, 1⟩ (fun _ => none)).2 0
      = if (⟨fun _ _ _ => 5, fun l i => if l = 0 ∧ i = 0 then true else false,
            fun l => if l = 0 then 1 else 0, 1⟩ : KeymapState).alteredCount 0 = 0
        then none
        else if 1 * 3 * 2 ≤ 4 * (⟨fun _ _ _ => 5,
            fun l i => if l = 0 ∧ i = 0 then true else false,
            fun l => if l = 0 then 1 else 0, 1⟩ : KeymapState).alteredCount 0 then
          some (0 :: ((List.range (1 * 3)).map
            (fun _i => u16leBytes ((5 : Nat)))).flatten)
        else
          some (1 :: ((keymap_altered_indices 1 3
            ⟨fun _ _ _ => 5, fun l i => if l = 0 ∧ i = 0 then true else false,
             fun l => if l = 0 then 1 else 0, 1⟩ 0).map
            (keymap_override_entry_bytes 3
              ⟨fun _ _ _ => 5, fun l i => if l = 0 ∧ i = 0 then true else false,
               fun l => if l = 0 then 1 else 0, 1⟩ 0)).flatten)) :=
  ⟨by decide, by decide, by decide,
   keymap_save_layer_policy 1 3
     ⟨fun _ _ _ => 5, fun l i => if l = 0 ∧ i = 0 then true else false,
      fun l => if l = 0 then 1 else 0, 1⟩ (fun _ => none) 0
     (by decide) (by decide) (by decide)⟩

/-- Helper: the full-grid replay loop leaves other layers' caches alone. -/
theorem keymap_replay_full_frame (L R C : Nat) (raw : Nat → Nat → Nat → Nat)
    (layer : Nat) (bytes : List Nat) (l r c : Nat) (hne : ¬ l = layer) :
    ∀ (cnt i : Nat) (s1 : KeymapState),
      (keymap_replay_full L R C raw layer bytes s1 i cnt).cache l r c
        = s1.cache l r c := by
  intro cnt
  induction cnt with
  | zero => intro i s1; rfl
  | succ cnt' ih =>
    intro i s1
    rw [show keymap_replay_full L R C raw layer bytes s1 i (cnt' + 1)
        = keymap_replay_full L R C raw layer bytes
            (nvm_dynamic_keymap_update_keycode L R C raw s1 layer (i / C) (i % C)
              (keymap_decode_u16 bytes (1 + 2 * i))) (i + 1) cnt' from rfl]
    rw [ih]
    exact update_keycode_cache_ne L R C raw s1 layer (i / C) (i % C) _ l r c
      (by tauto)

/-- Helper: the override replay loop leaves other layers' caches alone. -/
theorem keymap_replay_overrides_frame (L R C : Nat) (raw : Nat → Nat → Nat → Nat)
    (layer : Nat) (bytes : List Nat) (l r c : Nat) (hne : ¬ l = layer) :
    ∀ (cnt j : Nat) (s1 : KeymapState),
      (keymap_replay_overrides L R C raw layer bytes s1 j cnt).cache l r c
        = s1.cache l r c := by
  intro cnt
  induction cnt with
  | zero => intro j s1; rfl
  | succ cnt' ih =>
    intro j s1
    rw [show keymap_replay_overrides L R C raw layer bytes s1 j (cnt' + 1)
        = keymap_replay_overrides L R C raw layer bytes
            (nvm_dynamic_keymap_update_keycode L R C raw s1 layer
              (bytes.getD (1 + 4 * j) 0) (bytes.getD (2 + 4 * j) 0)
              (keymap_decode_u16 bytes (3 + 4 * j))) (j + 1) cnt' from rfl]
    rw [ih]
    exact update_keycode_cache_ne L R C raw s1 layer _ _ _ l r c (by tauto)

/-- Helper: one load iteration leaves other layers' caches alone. -/
theorem keymap_load_layer_frame (L R C : Nat) (raw : Nat → Nat → Nat → Nat)
    (fsk : Nat → Option (List Nat)) (s : KeymapState) (layer l r c : Nat)
    (hne : ¬ l = layer) :
    (keymap_load_layer L R C raw fsk s layer).cache l r c = s.cache l r c := by
  have hreset : (nvm_dynamic_keymap_reset_cache_layer_to_raw R C raw s layer).cache l r c
      = s.cache l r c := by
    simp only [nvm_dynamic_keymap_reset_cache_layer_to_raw]
    rw [if_neg (by tauto)]
  unfold keymap_load_layer
  rcases hf : fsk layer with _ | bytes
  · simpa using hreset
  · simp only []
    by_cases hm : bytes.getD 0 0 = 0
    · rw [if_pos hm, keymap_replay_full_frame L R C raw layer bytes l r c hne]
      exact hreset
    · rw [if_neg hm, keymap_replay_overrides_frame L R C raw layer bytes l r c hne]
      exact hreset

/-- Helper: folding load iterations over layer indices not containing l
leaves layer l's cache alone. -/
theorem keymap_load_fold_frame (L R C : Nat) (raw : Nat → Nat → Nat → Nat)
    (fsk : Nat → Option (List Nat)) (l r c : Nat) :
    ∀ (ls : List Nat) (s : KeymapState), l ∉ ls →
      (ls.foldl (keymap_load_layer L R C raw fsk) s).cache l r c = s.cache l r c := by
  intro ls
  induction ls with
  | nil => intro s _; rfl
  | cons a ls' ih =>
    intro s hnot
    rw [List.foldl_cons, ih _ (fun h => hnot (List.mem_cons_of_mem _ h))]
    exact keymap_load_layer_frame L R C raw fsk s a l r c
      (fun h => hnot (h ▸ List.mem_cons_self _ _))

/-- Helper: if one load iteration at layer l computes a fixed target cache
for layer l from the file directory alone, then so does the whole load fold,
for any list of iterated indices containing l. -/
theorem keymap_load_fold_value (L R C : Nat) (raw : Nat → Nat → Nat → Nat)
    (fsk : Nat → Option (List Nat)) (l : Nat) (target : Nat → Nat → Nat)
    (hval : ∀ (s' : KeymapState) (r c : Nat), r < R → c < C →
      (keymap_load_layer L R C raw fsk s' l).cache l r c = target r c) :
    ∀ (ls : List Nat) (s : KeymapState), l ∈ ls → ∀ r c, r < R → c < C →
      (ls.foldl (keymap_load_layer L R C raw fsk) s).cache l r c = target r c := by
  intro ls
  induction ls with
  | nil => intro s h; exact absurd h (List.not_mem_nil _)
  | cons a ls' ih =>
    intro s hmem r c hr hc
    rw [List.foldl_cons]
    by_cases hin : l ∈ ls'
    · exact ih _ hin r c hr hc
    · have hla : l = a := by
        rcases List.mem_cons.mp hmem with h | h
        · exact h
        · exact absurd h hin
      subst hla
      rw [keymap_load_fold_frame L R C raw fsk l r c ls' _ hin]
      exact hval s r c hr hc

/-- Helper: cache contents after the full-grid replay loop: positions whose
flat index falls inside the replayed window take the decoded file keycode,
all others keep their previous value. -/
theorem keymap_replay_full_cache (L R C : Nat) (raw : Nat → Nat → Nat → Nat)
    (layer : Nat) (bytes : List Nat) (hlayer : layer < L) :
    ∀ (cnt i : Nat) (s1 : KeymapState), i + cnt ≤ R * C →
      ∀ r c, r < R → c < C →
        (keymap_replay_full L R C raw layer bytes s1 i cnt).cache layer r c
          = if i ≤ r * C + c ∧ r * C + c < i + cnt
            then keymap_decode_u16 bytes (1 + 2 * (r * C + c)) % 65536
            else s1.cache layer r c := by
  intro cnt
  induction cnt with
  | zero =>
    intro i s1 hle r c hr hc
    rw [show keymap_replay_full L R C raw layer bytes s1 i 0 = s1 from rfl]
    rw [if_neg (by omega)]
  | succ cnt' ih =>
    intro i s1 hle r c hr hc
    have hC : 0 < C := by omega
    have hrow : i / C < R := (Nat.div_lt_iff_lt_mul hC).mpr (by omega)
    have hcol : i % C < C := Nat.mod_lt _ hC
    rw [show keymap_replay_full L R C raw layer bytes s1 i (cnt' + 1)
        = keymap_replay_full L R C raw layer bytes
            (nvm_dynamic_keymap_update_keycode L R C raw s1 layer (i / C) (i % C)
              (keymap_decode_u16 bytes (1 + 2 * i))) (i + 1) cnt' from rfl]
    rw [ih (i + 1) _ (by omega) r c hr hc]
    by_cases hin : i + 1 ≤ r * C + c ∧ r * C + c < i + 1 + cnt'
    · rw [if_pos hin, if_pos (by omega)]
    · rw [if_neg hin]
      by_cases heq : r * C + c = i
      · rw [if_pos (by omega)]
        have h1 : i / C = r := by
          rw [← heq]
          exact (key_index_div_mod C r c hc).1
        have h2 : i % C = c := by
          rw [← heq]
          exact (key_index_div_mod C r c hc).2
        rw [heq, h1, h2]
        exact update_keycode_cache_eq L R C raw s1 layer r c _ hlayer hr hc
      · rw [if_neg (by omega)]
        apply update_keycode_cache_ne
        rintro ⟨-, hreq, hceq⟩
        apply heq
        subst hreq
        subst hceq
        rw [Nat.mul_comm]
        exact Nat.div_add_mod i C

/-- Helper: default-valued indexing into a mapped list. -/
theorem getD_map_blocks (es : List Nat) (f : Nat → List Nat) (k : Nat)
    (hk : k < es.length) :
    (es.map f).getD k [] = f (es.getD k 0) := by
  rw [List.getD_eq_getElem _ _ (by simpa using hk), List.getElem_map,
    List.getD_eq_getElem _ _ hk]

/-- Helper: decoding the k-th uint16 of a full-grid layer file recovers the
cached keycode at the k-th row-major position. -/
theorem keymap_full_grid_decode (R C : Nat) (s : KeymapState) (layer k : Nat)
    (hk : k < R * C) (hv : s.cache layer (k / C) (k % C) < 65536) :
    keymap_decode_u16 (keymap_full_grid_bytes R C s layer) (1 + 2 * k)
      = s.cache layer (k / C) (k % C) := by
  have hblocks : ∀ b ∈ (List.range (R * C)).map
      (fun i => u16leBytes (s.cache layer (i / C) (i % C))), b.length = 2 := by
    intro b hb
    obtain ⟨j, _, rfl⟩ := List.mem_map.mp hb
    rfl
  have hlen : k < ((List.range (R * C)).map
      (fun i => u16leBytes (s.cache layer (i / C) (i % C)))).length := by
    simpa using hk
  have h0 := flatten_blocks_getD 2 ((List.range (R * C)).map
      (fun i => u16leBytes (s.cache layer (i / C) (i % C)))) k 0 hblocks
      (by omega) hlen
  have h1 := flatten_blocks_getD 2 ((List.range (R * C)).map
      (fun i => u16leBytes (s.cache layer (i / C) (i % C)))) k 1 hblocks
      (by omega) hlen
  rw [getD_map_range (R * C) k _ hk] at h0 h1
  simp only [Nat.add_zero] at h0
  unfold keymap_decode_u16 keymap_full_grid_bytes
  rw [show 1 + 2 * k = 2 * k + 1 from by omega, List.getD_cons_succ,
    List.getD_cons_succ, h0, h1]
  unfold u16leBytes
  simp only [List.getD_cons_zero, List.getD_cons_succ]
  omega

/-- Helper: every altered index of a layer is in range. -/
theorem keymap_altered_indices_lt (R C : Nat) (s : KeymapState) (layer : Nat) :
    ∀ e ∈ keymap_altered_indices R C s layer, e < R * C := by
  intro e he
  unfold keymap_altered_indices at he
  exact List.mem_range.mp (List.mem_filter.mp he).1

/-- Helper: membership in the altered index list is the altered bit. -/
theorem keymap_altered_indices_mem (R C : Nat) (s : KeymapState) (layer i : Nat)
    (hi : i < R * C) :
    i ∈ keymap_altered_indices R C s layer ↔ s.altered layer i = true := by
  unfold keymap_altered_indices
  rw [List.mem_filter]
  simp [List.mem_range, hi]

/-- Helper: when the altered count agrees with the bitmap, the override file
is the mode byte followed by the full flattened entry list. -/
theorem keymap_override_bytes_eq (R C : Nat) (s : KeymapState) (layer : Nat)
    (hcnt : (keymap_altered_indices R C s layer).length = s.alteredCount layer) :
    keymap_override_bytes R C s layer
      = 1 :: ((keymap_altered_indices R C s layer).map
        (keymap_override_entry_bytes C s layer)).flatten := by
  unfold keymap_override_bytes
  have hblocks : ∀ b ∈ (keymap_altered_indices R C s layer).map
      (keymap_override_entry_bytes C s layer), b.length = 4 := by
    intro b hb
    obtain ⟨_j, _, rfl⟩ := List.mem_map.mp hb
    rfl
  apply List.take_of_length_le
  simp only [List.length_cons, flatten_blocks_length 4 _ hblocks, List.length_map, hcnt]
  omega

/-- Helper: cache contents after the override replay loop: replaying entries
that decode to positions and pre-state keycodes restores the pre-state cache
on the layer, provided untouched positions already match. -/
theorem keymap_replay_overrides_cache (L R C : Nat) (raw : Nat → Nat → Nat → Nat)
    (layer : Nat) (bytes : List Nat) (es : List Nat) (pre : KeymapState)
    (hlayer : layer < L)
    (hes_range : ∀ e ∈ es, e < R * C)
    (hdecode : ∀ k, k < es.length →
      bytes.getD (1 + 4 * k) 0 = es.getD k 0 / C
      ∧ bytes.getD (2 + 4 * k) 0 = es.getD k 0 % C
      ∧ keymap_decode_u16 bytes (3 + 4 * k) % 65536
          = pre.cache layer (es.getD k 0 / C) (es.getD k 0 % C)) :
    ∀ (m j : Nat) (s1 : KeymapState), es.length = j + m →
      (∀ r c, r < R → c < C → ¬ (r * C + c) ∈ es.drop j →
        s1.cache layer r c = pre.cache layer r c) →
      ∀ r c, r < R → c < C →
        (keymap_replay_overrides L R C raw layer bytes s1 j m).cache layer r c
          = pre.cache layer r c := by
  intro m
  induction m with
  | zero =>
    intro j s1 hlen hbase r c hr hc
    rw [show keymap_replay_overrides L R C raw layer bytes s1 j 0 = s1 from rfl]
    apply hbase r c hr hc
    rw [List.drop_eq_nil_of_le (by omega)]
    exact List.not_mem_nil _
  | succ m' ih =>
    intro j s1 hlen hbase r c hr hc
    have hj : j < es.length := by omega
    obtain ⟨hb1, hb2, hb3⟩ := hdecode j hj
    have hdropj : es.drop j = es.getD j 0 :: es.drop (j + 1) := by
      rw [List.getD_eq_getElem _ _ hj]
      exact List.drop_eq_getElem_cons hj
    have heRC : es.getD j 0 < R * C := by
      apply hes_range
      rw [List.getD_eq_getElem _ _ hj]
      exact List.getElem_mem _
    rw [show keymap_replay_overrides L R C raw layer bytes s1 j (m' + 1)
        = keymap_replay_overrides L R C raw layer bytes
            (nvm_dynamic_keymap_update_keycode L R C raw s1 layer
              (bytes.getD (1 + 4 * j) 0) (bytes.getD (2 + 4 * j) 0)
              (keymap_decode_u16 bytes (3 + 4 * j))) (j + 1) m' from rfl]
    apply ih (j + 1) _ (by omega) ?_ r c hr hc
    intro r' c' hr' hc' hnot
    have hC : 0 < C := by omega
    have hrow : es.getD j 0 / C < R := (Nat.div_lt_iff_lt_mul hC).mpr (by omega)
    have hcol : es.getD j 0 % C < C := Nat.mod_lt _ hC
    rw [hb1, hb2]
    by_cases hpos : r' = es.getD j 0 / C ∧ c' = es.getD j 0 % C
    · obtain ⟨h1, h2⟩ := hpos
      subst h1
      subst h2
      rw [update_keycode_cache_eq L R C raw s1 layer _ _ _ hlayer hrow hcol]
      exact hb3
    · rw [update_keycode_cache_ne L R C raw s1 layer _ _ _ layer r' c' (by tauto)]
      apply hbase r' c' hr' hc'
      rw [hdropj]
      intro hmem
      rcases List.mem_cons.mp hmem with h | h
      · apply hpos
        refine ⟨?_, ?_⟩
        · rw [← h]
          exact ((key_index_div_mod C r' c' hc').1).symm
        · rw [← h]
          exact ((key_index_div_mod C r' c' hc').2).symm
      · exact hnot h

/-- Helper: load iteration when the layer file is absent. -/
theorem keymap_load_layer_none_eq (L R C : Nat) (raw : Nat → Nat → Nat → Nat)
    (fsk : Nat → Option (List Nat)) (s : KeymapState) (layer : Nat)
    (hf : fsk layer = none) :
    keymap_load_layer L R C raw fsk s layer
      = nvm_dynamic_keymap_reset_cache_layer_to_raw R C raw s layer := by
  unfold keymap_load_layer
  rw [hf]

/-- Helper: load iteration when the layer file is present. -/
theorem keymap_load_layer_some_eq (L R C : Nat) (raw : Nat → Nat → Nat → Nat)
    (fsk : Nat → Option (List Nat)) (s : KeymapState) (layer : Nat)
    (bytes : List Nat) (hf : fsk layer = some bytes) :
    keymap_load_layer L R C raw fsk s layer
      = if bytes.getD 0 0 = 0 then
          keymap_replay_full L R C raw layer bytes
            (nvm_dynamic_keymap_reset_cache_layer_to_raw R C raw s layer) 0 (R * C)
        else
          keymap_replay_overrides L R C raw layer bytes
            (nvm_dynamic_keymap_reset_cache_layer_to_raw R C raw s layer) 0
            ((bytes.length - 1) / 4) := by
  unfold keymap_load_layer
  rw [hf]

/-- Helper: with no layer file, the load iteration leaves the raw defaults on
the layer. -/
theorem keymap_load_layer_value_none (L R C : Nat) (raw : Nat → Nat → Nat → Nat)
    (fsk : Nat → Option (List Nat)) (s : KeymapState) (layer : Nat)
    (hf : fsk layer = none) (r c : Nat) (hr : r < R) (hc : c < C) :
    (keymap_load_layer L R C raw fsk s layer).cache layer r c = raw layer r c := by
  rw [keymap_load_layer_none_eq L R C raw fsk s layer hf]
  show (if layer = layer ∧ r < R ∧ c < C then raw layer r c else s.cache layer r c)
    = raw layer r c
  rw [if_pos ⟨rfl, hr, hc⟩]

/-- Helper: with a full-grid layer file of a previous state, the load
iteration restores that state's cache on the layer. -/
theorem keymap_load_layer_value_full (L R C : Nat) (raw : Nat → Nat → Nat → Nat)
    (fsk : Nat → Option (List Nat)) (s pre : KeymapState) (layer : Nat)
    (hlayer : layer < L)
    (hf : fsk layer = some (keymap_full_grid_bytes R C pre layer))
    (hkc : ∀ r c, r < R → c < C → pre.cache layer r c < 65536)
    (r c : Nat) (hr : r < R) (hc : c < C) :
    (keymap_load_layer L R C raw fsk s layer).cache layer r c
      = pre.cache layer r c := by
  rw [keymap_load_layer_some_eq L R C raw fsk s layer _ hf]
  rw [if_pos (show (keymap_full_grid_bytes R C pre layer).getD 0 0 = 0 from rfl)]
  rw [keymap_replay_full_cache L R C raw layer _ hlayer (R * C) 0 _ (by omega)
    r c hr hc]
  rw [if_pos ⟨Nat.zero_le _, by simpa using key_index_lt R C r c hr hc⟩]
  have hdm := key_index_div_mod C r c hc
  have hv : pre.cache layer ((r * C + c) / C) ((r * C + c) % C) < 65536 := by
    rw [hdm.1, hdm.2]
    exact hkc r c hr hc
  rw [keymap_full_grid_decode R C pre layer (r * C + c)
    (key_index_lt R C r c hr hc) hv]
  rw [hdm.1, hdm.2]
  exact Nat.mod_eq_of_lt (hkc r c hr hc)

/-- Helper: with an override layer file of a previous state whose altered
count matches its bitmap, the load iteration restores that state's cache on
the layer (non-overridden keys already equal the raw defaults). -/
theorem keymap_load_layer_value_override (L R C : Nat) (raw : Nat → Nat → Nat → Nat)
    (fsk : Nat → Option (List Nat)) (s pre : KeymapState) (layer : Nat)
    (hlayer : layer < L) (hR : R ≤ 256) (hC : C ≤ 256)
    (hf : fsk layer = some (keymap_override_bytes R C pre layer))
    (hcnt : (keymap_altered_indices R C pre layer).length = pre.alteredCount layer)
    (hkc : ∀ r c, r < R → c < C → pre.cache layer r c < 65536)
    (hclean : ∀ r c, r < R → c < C → pre.altered layer (r * C + c) = false →
      pre.cache layer r c = raw layer r c)
    (r c : Nat) (hr : r < R) (hc : c < C) :
    (keymap_load_layer L R C raw fsk s layer).cache layer r c
      = pre.cache layer r c := by
  have hbytes := keymap_override_bytes_eq R C pre layer hcnt
  have hblocks : ∀ b ∈ (keymap_altered_indices R C pre layer).map
      (keymap_override_entry_bytes C pre layer), b.length = 4 := by
    intro b hb
    obtain ⟨_j, _, rfl⟩ := List.mem_map.mp hb
    rfl
  have hflatlen : ((keymap_altered_indices R C pre layer).map
      (keymap_override_entry_bytes C pre layer)).flatten.length
      = 4 * (keymap_altered_indices R C pre layer).length := by
    rw [flatten_blocks_length 4 _ hblocks, List.length_map]
  rw [keymap_load_layer_some_eq L R C raw fsk s layer _ hf, hbytes]
  rw [if_neg (by simp)]
  have hcount : ((1 :: ((keymap_altered_indices R C pre layer).map
      (keymap_override_entry_bytes C pre layer)).flatten).length - 1) / 4
      = (keymap_altered_indices R C pre layer).length := by
    simp only [List.length_cons, hflatlen]
    omega
  rw [hcount]
  apply keymap_replay_overrides_cache L R C raw layer _
    (keymap_altered_indices R C pre layer) pre hlayer
    (keymap_altered_indices_lt R C pre layer) ?hdecode
    (keymap_altered_indices R C pre layer).length 0 _ (by omega) ?hbase r c hr hc
  case hbase =>
    intro r' c' hr' hc' hnot
    rw [List.drop_zero] at hnot
    have hreset : (nvm_dynamic_keymap_reset_cache_layer_to_raw R C raw s layer).cache
        layer r' c' = raw layer r' c' := by
      show (if layer = layer ∧ r' < R ∧ c' < C then raw layer r' c'
        else s.cache layer r' c') = raw layer r' c'
      rw [if_pos ⟨rfl, hr', hc'⟩]
    have halt : pre.altered layer (r' * C + c') = false := by
      rcases hx : pre.altered layer (r' * C + c') with _ | _
      · rfl
      · exact absurd ((keymap_altered_indices_mem R C pre layer _
          (key_index_lt R C r' c' hr' hc')).mpr hx) hnot
    rw [hreset]
    exact (hclean r' c' hr' hc' halt).symm
  case hdecode =>
    intro k hk
    have hmaplen : k < ((keymap_altered_indices R C pre layer).map
        (keymap_override_entry_bytes C pre layer)).length := by simpa using hk
    have h0 := flatten_blocks_getD 4 ((keymap_altered_indices R C pre layer).map
      (keymap_override_entry_bytes C pre layer)) k 0 hblocks (by omega) hmaplen
    have h1 := flatten_blocks_getD 4 ((keymap_altered_indices R C pre layer).map
      (keymap_override_entry_bytes C pre layer)) k 1 hblocks (by omega) hmaplen
    have h2 := flatten_blocks_getD 4 ((keymap_altered_indices R C pre layer).map
      (keymap_override_entry_bytes C pre layer)) k 2 hblocks (by omega) hmaplen
    have h3 := flatten_blocks_getD 4 ((keymap_altered_indices R C pre layer).map
      (keymap_override_entry_bytes C pre layer)) k 3 hblocks (by omega) hmaplen
    rw [getD_map_blocks _ _ k hk] at h0 h1 h2 h3
    simp only [Nat.add_zero] at h0
    have heRC : (keymap_altered_indices R C pre layer).getD k 0 < R * C := by
      apply keymap_altered_indices_lt R C pre layer
      rw [List.getD_eq_getElem _ _ hk]
      exact List.getElem_mem _
    have hC0 : 0 < C := by
      rcases Nat.eq_zero_or_pos C with h | h
      · rw [h, Nat.mul_zero] at heRC
        omega
      · exact h
    have hrowlt : (keymap_altered_indices R C pre layer).getD k 0 / C < R :=
      (Nat.div_lt_iff_lt_mul hC0).mpr (by omega)
    have hcollt : (keymap_altered_indices R C pre layer).getD k 0 % C < C :=
      Nat.mod_lt _ hC0
    have hentry : keymap_override_entry_bytes C pre layer
        ((keymap_altered_indices R C pre layer).getD k 0)
        = ((keymap_altered_indices R C pre layer).getD k 0 / C) % 256
          :: ((keymap_altered_indices R C pre layer).getD k 0 % C) % 256
          :: (pre.cache layer ((keymap_altered_indices R C pre layer).getD k 0 / C)
              ((keymap_altered_indices R C pre layer).getD k 0 % C)) % 256
          :: (pre.cache layer ((keymap_altered_indices R C pre layer).getD k 0 / C)
              ((keymap_altered_indices R C pre layer).getD k 0 % C)) / 256 % 256
          :: [] := rfl
    rw [hentry] at h0 h1 h2 h3
    simp only [List.getD_cons_zero, List.getD_cons_succ] at h0 h1 h2 h3
    refine ⟨?_, ?_, ?_⟩
    · rw [show (1 : Nat) + 4 * k = 4 * k + 1 from by omega, List.getD_cons_succ, h0]
      exact Nat.mod_eq_of_lt (by omega)
    · rw [show (2 : Nat) + 4 * k = (4 * k + 1) + 1 from by omega,
        List.getD_cons_succ, h1]
      exact Nat.mod_eq_of_lt (by omega)
    · unfold keymap_decode_u16
      rw [show (3 : Nat) + 4 * k = (4 * k + 2) + 1 from by omega,
        List.getD_cons_succ, h2]
      rw [show (4 * k + 2) + 1 + 1 = (4 * k + 3) + 1 from by omega,
        List.getD_cons_succ, h3]
      have hv := hkc _ _ hrowlt hcollt
      omega

/-- Helper: the invariant holds after any sequence of update calls from the
boot state. -/
theorem keymap_inv_updates (L R C : Nat) (raw : Nat → Nat → Nat → Nat)
    (hRC : R * C < 65536) (hraw : ∀ l r c, raw l r c < 65536)
    (ops : List (Nat × Nat × Nat × Nat)) :
    KeymapInv L R C raw (ops.foldl (fun st o =>
      nvm_dynamic_keymap_update_keycode L R C raw st o.1 o.2.1 o.2.2.1 o.2.2.2)
      (keymapInitState raw)) := by
  have haux : ∀ (os : List (Nat × Nat × Nat × Nat)) (st : KeymapState),
      KeymapInv L R C raw st →
      KeymapInv L R C raw (os.foldl (fun st o =>
        nvm_dynamic_keymap_update_keycode L R C raw st o.1 o.2.1 o.2.2.1 o.2.2.2)
        st) := by
    intro os
    induction os with
    | nil => intro st h; exact h
    | cons o os' ih =>
      intro st h
      exact ih _ (keymap_inv_update L R C raw st o.1 o.2.1 o.2.2.1 o.2.2.2 hRC h)
  exact haux ops _ (keymap_inv_init L R C raw hraw)

/-- Helper: one update keeps the dirty mask below 2^16 and keeps clean
layers (dirty bit unset) at the raw defaults. -/
theorem keymap_update_props_step (L R C : Nat) (raw : Nat → Nat → Nat → Nat)
    (hL : L ≤ LAYER_STATE_BITS) (st : KeymapState) (layer row col kc : Nat)
    (h : st.dirty < 65536 ∧ ∀ l, l < L → st.dirty.testBit l = false →
      ∀ r c, r < R → c < C → st.cache l r c = raw l r c) :
    (nvm_dynamic_keymap_update_keycode L R C raw st layer row col kc).dirty < 65536
    ∧ ∀ l, l < L →
        (nvm_dynamic_keymap_update_keycode L R C raw st layer row col kc).dirty.testBit l
          = false →
        ∀ r c, r < R → c < C →
          (nvm_dynamic_keymap_update_keycode L R C raw st layer row col kc).cache l r c
            = raw l r c := by
  obtain ⟨hlt, hclean⟩ := h
  by_cases hg : layer ≥ L ∨ row ≥ R ∨ col ≥ C
  · unfold nvm_dynamic_keymap_update_keycode
    rw [if_pos hg]
    exact ⟨hlt, hclean⟩
  · push_neg at hg
    obtain ⟨hlL, hrR, hcC⟩ := hg
    have hl16 : layer < 16 := by
      have : LAYER_STATE_BITS = 16 := rfl
      omega
    have hpow : 2 ^ layer < 65536 := by
      calc 2 ^ layer ≤ 2 ^ 15 := Nat.pow_le_pow_right (by omega) (by omega)
        _ < 65536 := by norm_num
    have hor : st.dirty ||| 2 ^ layer < 65536 := by
      have h16 : (65536 : Nat) = 2 ^ 16 := by norm_num
      rw [h16]
      rw [h16] at hlt hpow
      exact Nat.or_lt_two_pow hlt hpow
    have hdirty : (nvm_dynamic_keymap_update_keycode L R C raw st layer row col kc).dirty
        = st.dirty ||| 2 ^ layer := by
      unfold nvm_dynamic_keymap_update_keycode set_key_altered
      rw [if_neg (by omega)]
      simp only []
      exact Nat.mod_eq_of_lt hor
    refine ⟨?_, ?_⟩
    · rw [hdirty]
      exact hor
    · intro l hl hbit r c hr hc
      rw [hdirty, Nat.testBit_or] at hbit
      have hbits := Bool.or_eq_false_iff.mp hbit
      have hne : ¬ l = layer := by
        intro heq
        subst heq
        rw [Nat.testBit_two_pow_self] at hbits
        exact Bool.false_ne_true hbits.2.symm
      rw [update_keycode_cache_ne L R C raw st layer row col kc l r c (by tauto)]
      exact hclean l hl hbits.1 r c hr hc

/-- Helper: after any sequence of update calls from the boot state the dirty
mask stays below 2^16 and clean layers hold the raw defaults. -/
theorem keymap_updates_props (L R C : Nat) (raw : Nat → Nat → Nat → Nat)
    (hL : L ≤ LAYER_STATE_BITS) (ops : List (Nat × Nat × Nat × Nat)) :
    (ops.foldl (fun st o =>
      nvm_dynamic_keymap_update_keycode L R C raw st o.1 o.2.1 o.2.2.1 o.2.2.2)
      (keymapInitState raw)).dirty < 65536
    ∧ ∀ l, l < L →
        (ops.foldl (fun st o =>
          nvm_dynamic_keymap_update_keycode L R C raw st o.1 o.2.1 o.2.2.1 o.2.2.2)
          (keymapInitState raw)).dirty.testBit l = false →
        ∀ r c, r < R → c < C →
          (ops.foldl (fun st o =>
            nvm_dynamic_keymap_update_keycode L R C raw st o.1 o.2.1 o.2.2.1 o.2.2.2)
            (keymapInitState raw)).cache l r c = raw l r c := by
  have haux : ∀ (os : List (Nat × Nat × Nat × Nat)) (st : KeymapState),
      (st.dirty < 65536 ∧ ∀ l, l < L → st.dirty.testBit l = false →
        ∀ r c, r < R → c < C → st.cache l r c = raw l r c) →
      ((os.foldl (fun st o =>
        nvm_dynamic_keymap_update_keycode L R C raw st o.1 o.2.1 o.2.2.1 o.2.2.2)
        st).dirty < 65536
      ∧ ∀ l, l < L →
          (os.foldl (fun st o =>
            nvm_dynamic_keymap_update_keycode L R C raw st o.1 o.2.1 o.2.2.1 o.2.2.2)
            st).dirty.testBit l = false →
          ∀ r c, r < R → c < C →
            (os.foldl (fun st o =>
              nvm_dynamic_keymap_update_keycode L R C raw st o.1 o.2.1 o.2.2.1 o.2.2.2)
              st).cache l r c = raw l r c) := by
    intro os
    induction os with
    | nil => intro st h; exact h
    | cons o os' ih =>
      intro st h
      exact ih _ (keymap_update_props_step L R C raw hL st o.1 o.2.1 o.2.2.1 o.2.2.2 h)
  exact haux ops _ ⟨by simp [keymapInitState], fun l _ _ r c _ _ => rfl⟩

/-- Claim C1.  For every sequence of nvm_dynamic_keymap_update_keycode calls
applied to the boot-state keymap store (with its empty layer directory),
running nvm_dynamic_keymap_save followed by nvm_dynamic_keymap_load leaves
every in-range entry of the per-layer RAM keycode cache equal to its
pre-save contents. -/
theorem keymap_save_load_roundtrip (L R C : Nat) (raw : Nat → Nat → Nat → Nat)
    (hL : L ≤ LAYER_STATE_BITS) (hR : R ≤ 256) (hC : C ≤ 256)
    (hRC : R * C < 65536) (hraw : ∀ l r c, raw l r c < 65536)
    (ops : List (Nat × Nat × Nat × Nat)) (pre : KeymapState)
    (hpre : pre = ops.foldl (fun st o =>
      nvm_dynamic_keymap_update_keycode L R C raw st o.1 o.2.1 o.2.2.1 o.2.2.2)
      (keymapInitState raw)) :
    ∀ l r c, l < L → r < R → c < C →
      (nvm_dynamic_keymap_load L R C raw
          (nvm_dynamic_keymap_save R C pre (fun _ => none)).1
          (nvm_dynamic_keymap_save R C pre (fun _ => none)).2).cache l r c
        = pre.cache l r c := by
  have hinv : KeymapInv L R C raw pre := by
    rw [hpre]
    exact keymap_inv_updates L R C raw hRC hraw ops
  have hprops : pre.dirty < 65536
      ∧ ∀ l, l < L → pre.dirty.testBit l = false →
          ∀ r c, r < R → c < C → pre.cache l r c = raw l r c := by
    rw [hpre]
    exact keymap_updates_props L R C raw hL ops
  obtain ⟨ha, hb, hc16⟩ := hinv
  obtain ⟨hdlt, hcleanL⟩ := hprops
  intro l r c hl hr hc
  have hl16 : l < LAYER_STATE_BITS := by omega
  unfold nvm_dynamic_keymap_load
  apply keymap_load_fold_value L R C raw
    (nvm_dynamic_keymap_save R C pre (fun _ => none)).2 l
    (fun r c => pre.cache l r c) ?hval _ _ (List.mem_range.mpr hl16) r c hr hc
  case hval =>
    intro s' r' c' hr' hc'
    by_cases hd : pre.dirty = 0
    · have hfiles : (nvm_dynamic_keymap_save R C pre (fun _ => none)).2 l = none := by
        unfold nvm_dynamic_keymap_save
        rw [if_pos hd]
      rw [keymap_load_layer_value_none L R C raw _ s' l hfiles r' c' hr' hc']
      have hbitf : pre.dirty.testBit l = false := by
        rw [hd]
        exact Nat.zero_testBit l
      exact (hcleanL l hl hbitf r' c' hr' hc').symm
    · have hfiles := keymap_save_files R C pre (fun _ => none) hd l hl16
      by_cases hbit : pre.dirty.testBit l = true
      · rw [if_pos hbit] at hfiles
        by_cases h0 : pre.alteredCount l = 0
        · rw [if_pos h0] at hfiles
          rw [keymap_load_layer_value_none L R C raw _ s' l hfiles r' c' hr' hc']
          have hlen0 : (keymap_altered_indices R C pre l).length = 0 := by
            rw [hb l hl, h0]
          have hnil := List.eq_nil_of_length_eq_zero hlen0
          have halt : pre.altered l (r' * C + c') = false := by
            rcases hx : pre.altered l (r' * C + c') with _ | _
            · rfl
            · have hm := (keymap_altered_indices_mem R C pre l _
                (key_index_lt R C r' c' hr' hc')).mpr hx
              rw [hnil] at hm
              exact absurd hm (List.not_mem_nil _)
          have hcr : pre.cache l r' c' = raw l r' c' := by
            by_contra hne
            have hx := (ha l r' c' hl hr' hc').mpr hne
            rw [halt] at hx
            exact Bool.false_ne_true hx
          exact hcr.symm
        · rw [if_neg h0] at hfiles
          by_cases hmode : R * C * 2 ≤ 4 * pre.alteredCount l
          · rw [if_pos hmode] at hfiles
            exact keymap_load_layer_value_full L R C raw _ s' pre l hl hfiles
              (fun r c hrr hcc => hc16 l r c hl hrr hcc) r' c' hr' hc'
          · rw [if_neg hmode] at hfiles
            refine keymap_load_layer_value_override L R C raw _ s' pre l hl hR hC
              hfiles (hb l hl) (fun r c hrr hcc => hc16 l r c hl hrr hcc)
              (fun r c hrr hcc hfalse => ?_) r' c' hr' hc'
            by_contra hne
            have hx := (ha l r c hl hrr hcc).mpr hne
            rw [hfalse] at hx
            exact Bool.false_ne_true hx
      · rw [if_neg hbit] at hfiles
        rw [keymap_load_layer_value_none L R C raw _ s' l hfiles r' c' hr' hc']
        have hbitf : pre.dirty.testBit l = false := by
          rcases hx : pre.dirty.testBit l with _ | _
          · rfl
          · exact absurd hx hbit
        exact (hcleanL l hl hbitf r' c' hr' hc').symm

/-- Witness for claim C1 at a concrete 1-layer, 1-key store with a single
update call. -/
theorem keymap_save_load_roundtrip_witness :
    (1 ≤ LAYER_STATE_BITS) ∧ (1 ≤ 256) ∧ (1 ≤ 256) ∧ (1 * 1 < 65536)
    ∧ (∀ l r c : Nat, (fun _ _ _ => (0 : Nat)) l r c < 65536)
    ∧ ([((0 : Nat), (0 : Nat), (0 : Nat), (7 : Nat))].foldl (fun st o =>
        nvm_dynamic_keymap_update_keycode 1 1 1 (fun _ _ _ => 0)
          st o.1 o.2.1 o.2.2.1 o.2.2.2)
        (keymapInitState (fun _ _ _ => 0))
      = [((0 : Nat), (0 : Nat), (0 : Nat), (7 : Nat))].foldl (fun st o =>
          nvm_dynamic_keymap_update_keycode 1 1 1 (fun _ _ _ => 0)
            st o.1 o.2.1 o.2.2.1 o.2.2.2)
          (keymapInitState (fun _ _ _ => 0)))
    ∧ (∀ l r c, l < 1 → r < 1 → c < 1 →
        (nvm_dynamic_keymap_load 1 1 1 (fun _ _ _ => 0)
            (nvm_dynamic_keymap_save 1 1
              ([((0 : Nat), (0 : Nat), (0 : Nat), (7 : Nat))].foldl (fun st o =>
                nvm_dynamic_keymap_update_keycode 1 1 1 (fun _ _ _ => 0)
                  st o.1 o.2.1 o.2.2.1 o.2.2.2)
                (keymapInitState (fun _ _ _ => 0))) (fun _ => none)).1
            (nvm_dynamic_keymap_save 1 1
              ([((0 : Nat), (0 : Nat), (0 : Nat), (7 : Nat))].foldl (fun st o =>
                nvm_dynamic_keymap_update_keycode 1 1 1 (fun _ _ _ => 0)
                  st o.1 o.2.1 o.2.2.1 o.2.2.2)
                (keymapInitState (fun _ _ _ => 0))) (fun _ => none)).2).cache l r c
          = ([((0 : Nat), (0 : Nat), (0 : Nat), (7 : Nat))].foldl (fun st o =>
              nvm_dynamic_keymap_update_keycode 1 1 1 (fun _ _ _ => 0)
                st o.1 o.2.1 o.2.2.1 o.2.2.2)
              (keymapInitState (fun _ _ _ => 0))).cache l r c) :=
  ⟨by decide, by decide, by decide, by decide, fun _ _ _ => by norm_num, rfl,
   keymap_save_load_roundtrip 1 1 1 (fun _ _ _ => 0) (by decide) (by decide)
     (by decide) (by decide) (fun _ _ _ => by norm_num)
     [((0 : Nat), (0 : Nat), (0 : Nat), (7 : Nat))] _ rfl⟩
